import Mathlib

/-!
Verification development for the New Asgard Chess rules engine.

The definitions below are a shallow embedding of the TypeScript sources:
the chess reducer (`useChessReducer.ts`), the game component's move
generation and status logic (`ChessGame.tsx`), the FEN codec
(`fen.ts`), and the UCI move utilities (`types/chess.ts`,
`ai/move-parser.ts`).  JavaScript numbers are modelled as `Int`,
boards as 8×8 lists of optional pieces, string-keyed `hasMoved` maps as a
record of six booleans (the only six keys the code ever creates), and
thrown exceptions as `Except String`.
-/

namespace NAChess

/-- Piece kinds, as in `types/chess.ts`. -/
inductive PieceType where
  | king | queen | rook | bishop | knight | pawn
deriving DecidableEq, Repr

/-- Piece colors. -/
inductive PieceColor where
  | white | black
deriving DecidableEq, Repr

/-- A chess piece: `{ type, color }`. -/
structure ChessPiece where
  type : PieceType
  color : PieceColor
deriving DecidableEq, Repr

/-- A board coordinate `{ row, col }`; JavaScript numbers are modelled as `Int`. -/
structure Pos where
  row : Int
  col : Int
deriving DecidableEq, Repr

/-- The board: an 8×8 grid of `ChessPiece | null`. -/
abbrev Board := List (List (Option ChessPiece))

/-- The opposite color (`currentPlayer === 'white' ? 'black' : 'white'`). -/
def other : PieceColor → PieceColor
  | .white => .black
  | .black => .white

/-- Read one cell of a row; out-of-range (including negative) indices read as
empty, matching the fact that the source always bounds-checks before access. -/
def getRow : List (Option ChessPiece) → Int → Option ChessPiece
  | [], _ => none
  | x :: xs, c => if c = 0 then x else if c < 0 then none else getRow xs (c - 1)

/-- Read `board[r][c]`. -/
def getSq : Board → Int → Int → Option ChessPiece
  | [], _, _ => none
  | row :: rest, r, c => if r = 0 then getRow row c else if r < 0 then none else getSq rest (r - 1) c

/-- Write one cell of a row (no-op when the index is out of range). -/
def setRow : List (Option ChessPiece) → Int → Option ChessPiece → List (Option ChessPiece)
  | [], _, _ => []
  | x :: xs, c, v => if c = 0 then v :: xs else x :: setRow xs (c - 1) v

/-- Write `board[r][c] = v` (pure update). -/
def setSq : Board → Int → Int → Option ChessPiece → Board
  | [], _, _, _ => []
  | row :: rest, r, c, v =>
    if r = 0 then setRow row c v :: rest else row :: setSq rest (r - 1) c v

/-- `isInBounds` as used throughout the component. -/
def isInBounds (r c : Int) : Bool :=
  decide (0 ≤ r ∧ r < 8 ∧ 0 ≤ c ∧ c < 8)

/-- Row-major enumeration of the 64 squares (the `for row … for col …` loops). -/
def allSquares : List Pos :=
  (List.range 8).flatMap fun r => (List.range 8).map fun c => ⟨(r : Int), (c : Int)⟩

/-- Knight move offsets. -/
def knightOffsets : List (Int × Int) :=
  [(-2, -1), (-2, 1), (-1, -2), (-1, 2), (1, -2), (1, 2), (2, -1), (2, 1)]

/-- King move offsets. -/
def kingOffsets : List (Int × Int) :=
  [(-1, -1), (-1, 0), (-1, 1), (0, -1), (0, 1), (1, -1), (1, 0), (1, 1)]

/-- Rook/queen ray directions. -/
def rookDirections : List (Int × Int) := [(0, 1), (0, -1), (1, 0), (-1, 0)]

/-- Bishop/queen ray directions. -/
def bishopDirections : List (Int × Int) := [(1, 1), (1, -1), (-1, 1), (-1, -1)]

/-- One sliding-attack ray of `checkSquareUnderAttack`: walk from `(r, c)` in
direction `(dr, dc)` until the first occupied square; that square attacks iff
it holds an enemy piece of type `t1` or `t2`.  The fuel bound 8 covers the
whole board, reproducing the source's `while` loop. -/
def rayHit (b : Board) (defColor : PieceColor) (t1 t2 : PieceType) :
    Int → Int → Int → Int → Nat → Bool
  | _, _, _, _, 0 => false
  | r, c, dr, dc, n + 1 =>
    if isInBounds r c then
      match getSq b r c with
      | some p => decide (p.color ≠ defColor ∧ (p.type = t1 ∨ p.type = t2))
      | none => rayHit b defColor t1 t2 (r + dr) (c + dc) dr dc n
    else false

/-- The shared body of the pawn/knight/king attack loops in
`checkSquareUnderAttack`: an enemy piece of kind `t` on the (in-bounds)
square `(attackRow, attackCol)`. -/
def offsetAttackedBy (checkBoard : Board) (defenderColor : PieceColor) (t : PieceType)
    (attackRow attackCol : Int) : Bool :=
  isInBounds attackRow attackCol &&
    match getSq checkBoard attackRow attackCol with
    | some a => decide (a.color ≠ defenderColor ∧ a.type = t)
    | none => false

/-- `checkSquareUnderAttack(pos, defenderColor, checkBoard)` from `ChessGame.tsx`:
pawn, knight, king, then rook/queen and bishop/queen rays. -/
def checkSquareUnderAttack (pos : Pos) (defenderColor : PieceColor) (checkBoard : Board) : Bool :=
  let pawnDirection : Int := if defenderColor = .white then 1 else -1
  let pawnAtt := ([-1, 1] : List Int).any fun offset =>
    offsetAttackedBy checkBoard defenderColor .pawn (pos.row + pawnDirection) (pos.col + offset)
  let knightAtt := knightOffsets.any fun (ro, co) =>
    offsetAttackedBy checkBoard defenderColor .knight (pos.row + ro) (pos.col + co)
  let kingAtt := kingOffsets.any fun (ro, co) =>
    offsetAttackedBy checkBoard defenderColor .king (pos.row + ro) (pos.col + co)
  let rookAtt := rookDirections.any fun (dr, dc) =>
    rayHit checkBoard defenderColor .rook .queen (pos.row + dr) (pos.col + dc) dr dc 8
  let bishopAtt := bishopDirections.any fun (dr, dc) =>
    rayHit checkBoard defenderColor .bishop .queen (pos.row + dr) (pos.col + dc) dr dc 8
  pawnAtt || knightAtt || kingAtt || rookAtt || bishopAtt

/-- The king search of `isInCheck`: first square in row-major order holding
that color's king. -/
def findKing (color : PieceColor) (b : Board) : Option Pos :=
  (allSquares.filter fun p =>
    decide (getSq b p.row p.col = some ⟨.king, color⟩)).head?

/-- `isInCheck(color, checkBoard)`: locate the king, test attack; `false` when
no king is found. -/
def isInCheck (color : PieceColor) (checkBoard : Board) : Bool :=
  match findKing color checkBoard with
  | none => false
  | some kingPos => checkSquareUnderAttack kingPos color checkBoard

/-- `basicGetValidMoves`: the deliberately incomplete generator used by
`isInCheckmate` — pawn single pushes and captures, king steps, and nothing at
all for the other piece types (the source comment reads
"Other piece types would go here"). -/
def basicGetValidMoves (piece : ChessPiece) (pos : Pos) (checkBoard : Board) : List Pos :=
  match piece.type with
  | .pawn =>
    let direction : Int := if piece.color = .white then -1 else 1
    let fwd :=
      if isInBounds (pos.row + direction) pos.col &&
          (getSq checkBoard (pos.row + direction) pos.col).isNone then
        [Pos.mk (pos.row + direction) pos.col]
      else []
    let caps := ([-1, 1] : List Int).filterMap fun offset =>
      let newRow := pos.row + direction
      let newCol := pos.col + offset
      if isInBounds newRow newCol then
        match getSq checkBoard newRow newCol with
        | some t => if t.color ≠ piece.color then some ⟨newRow, newCol⟩ else none
        | none => none
      else none
    fwd ++ caps
  | .king =>
    kingOffsets.filterMap fun (ro, co) =>
      let newRow := pos.row + ro
      let newCol := pos.col + co
      if isInBounds newRow newCol then
        match getSq checkBoard newRow newCol with
        | some t => if t.color ≠ piece.color then some ⟨newRow, newCol⟩ else none
        | none => some ⟨newRow, newCol⟩
      else none
  | _ => []

/-- One sliding-move ray of `getBasicMoves` (empty squares collected, first
enemy square collected then stop, own piece stops). -/
def rayMoves (b : Board) (myColor : PieceColor) :
    Int → Int → Int → Int → Nat → List Pos
  | _, _, _, _, 0 => []
  | r, c, dr, dc, n + 1 =>
    if isInBounds r c then
      match getSq b r c with
      | none => ⟨r, c⟩ :: rayMoves b myColor (r + dr) (c + dc) dr dc n
      | some t => if t.color ≠ myColor then [⟨r, c⟩] else []
    else []

/-- `getBasicMoves(piece, pos, checkBoard)`: the full per-piece move tables
(pawn with double push, knight, king, and the sliding pieces). -/
def getBasicMoves (piece : ChessPiece) (pos : Pos) (checkBoard : Board) : List Pos :=
  match piece.type with
  | .pawn =>
    let direction : Int := if piece.color = .white then -1 else 1
    let startRow : Int := if piece.color = .white then 6 else 1
    let fwd :=
      if isInBounds (pos.row + direction) pos.col &&
          (getSq checkBoard (pos.row + direction) pos.col).isNone then
        Pos.mk (pos.row + direction) pos.col ::
          (if pos.row = startRow &&
              isInBounds (pos.row + 2 * direction) pos.col &&
              (getSq checkBoard (pos.row + 2 * direction) pos.col).isNone then
            [Pos.mk (pos.row + 2 * direction) pos.col]
          else [])
      else []
    let caps := ([-1, 1] : List Int).filterMap fun offset =>
      let newRow := pos.row + direction
      let newCol := pos.col + offset
      if isInBounds newRow newCol then
        match getSq checkBoard newRow newCol with
        | some t => if t.color ≠ piece.color then some ⟨newRow, newCol⟩ else none
        | none => none
      else none
    fwd ++ caps
  | .knight =>
    knightOffsets.filterMap fun (ro, co) =>
      let newRow := pos.row + ro
      let newCol := pos.col + co
      if isInBounds newRow newCol then
        match getSq checkBoard newRow newCol with
        | some t => if t.color ≠ piece.color then some ⟨newRow, newCol⟩ else none
        | none => some ⟨newRow, newCol⟩
      else none
  | .king =>
    kingOffsets.filterMap fun (ro, co) =>
      let newRow := pos.row + ro
      let newCol := pos.col + co
      if isInBounds newRow newCol then
        match getSq checkBoard newRow newCol with
        | some t => if t.color ≠ piece.color then some ⟨newRow, newCol⟩ else none
        | none => some ⟨newRow, newCol⟩
      else none
  | .rook =>
    rookDirections.flatMap fun (dr, dc) =>
      rayMoves checkBoard piece.color (pos.row + dr) (pos.col + dc) dr dc 8
  | .bishop =>
    bishopDirections.flatMap fun (dr, dc) =>
      rayMoves checkBoard piece.color (pos.row + dr) (pos.col + dc) dr dc 8
  | .queen =>
    (rookDirections ++ bishopDirections).flatMap fun (dr, dc) =>
      rayMoves checkBoard piece.color (pos.row + dr) (pos.col + dc) dr dc 8

/-- The string-keyed `hasMoved` map, restricted to the six keys the code ever
writes (`"white-king"`, `"white-rook-left"`, …); a missing key reads `false`. -/
structure HasMoved where
  whiteKing : Bool := false
  whiteRookLeft : Bool := false
  whiteRookRight : Bool := false
  blackKing : Bool := false
  blackRookLeft : Bool := false
  blackRookRight : Bool := false
deriving DecidableEq, Repr

/-- Look up `hasMoved[color + "-king"]`. -/
def HasMoved.kingOf (hm : HasMoved) : PieceColor → Bool
  | .white => hm.whiteKing
  | .black => hm.blackKing

/-- Look up `hasMoved[color + "-rook-left"]`. -/
def HasMoved.rookLeftOf (hm : HasMoved) : PieceColor → Bool
  | .white => hm.whiteRookLeft
  | .black => hm.blackRookLeft

/-- Look up `hasMoved[color + "-rook-right"]`. -/
def HasMoved.rookRightOf (hm : HasMoved) : PieceColor → Bool
  | .white => hm.whiteRookRight
  | .black => hm.blackRookRight

/-- Set `hasMoved[color + "-king"] = true`. -/
def HasMoved.setKing (hm : HasMoved) : PieceColor → HasMoved
  | .white => { hm with whiteKing := true }
  | .black => { hm with blackKing := true }

/-- Set `hasMoved[color + "-rook-left"] = true`. -/
def HasMoved.setRookLeft (hm : HasMoved) : PieceColor → HasMoved
  | .white => { hm with whiteRookLeft := true }
  | .black => { hm with blackRookLeft := true }

/-- Set `hasMoved[color + "-rook-right"] = true`. -/
def HasMoved.setRookRight (hm : HasMoved) : PieceColor → HasMoved
  | .white => { hm with whiteRookRight := true }
  | .black => { hm with blackRookRight := true }

/-- `getEnPassantMoves(piece, pos)`; `ept` is the component's
`enPassantTarget` state read through the closure. -/
def getEnPassantMoves (ept : Option Pos) (piece : ChessPiece) (pos : Pos) : List Pos :=
  match ept with
  | none => []
  | some target =>
    if piece.type = .pawn ∧ pos.row = (if piece.color = .white then (3 : Int) else 4) ∧
        (pos.col - target.col).natAbs = 1 then
      [⟨pos.row + (if piece.color = .white then (-1 : Int) else 1), target.col⟩]
    else []

/-- `getCastlingMoves(piece, pos, checkBoard)`; `hm` is the `hasMoved` state
read through the closure.  Note the destination squares use the color's home
row, not `pos`. -/
def getCastlingMoves (hm : HasMoved) (piece : ChessPiece) (pos : Pos) (checkBoard : Board) :
    List Pos :=
  if piece.type = .king ∧ hm.kingOf piece.color = false ∧
      isInCheck piece.color checkBoard = false then
    let row : Int := if piece.color = .white then 7 else 0
    let kingsideRook := getSq checkBoard row 7
    let queensideRook := getSq checkBoard row 0
    let ks :=
      if hm.rookRightOf piece.color = false ∧
          (∃ kr, kingsideRook = some kr ∧ kr.type = .rook ∧ kr.color = piece.color) ∧
          getSq checkBoard row 5 = none ∧ getSq checkBoard row 6 = none ∧
          checkSquareUnderAttack ⟨row, 5⟩ piece.color checkBoard = false ∧
          checkSquareUnderAttack ⟨row, 6⟩ piece.color checkBoard = false then
        [Pos.mk row 6]
      else []
    let qs :=
      if hm.rookLeftOf piece.color = false ∧
          (∃ qr, queensideRook = some qr ∧ qr.type = .rook ∧ qr.color = piece.color) ∧
          getSq checkBoard row 1 = none ∧ getSq checkBoard row 2 = none ∧
          getSq checkBoard row 3 = none ∧
          checkSquareUnderAttack ⟨row, 2⟩ piece.color checkBoard = false ∧
          checkSquareUnderAttack ⟨row, 3⟩ piece.color checkBoard = false then
        [Pos.mk row 2]
      else []
    ks ++ qs
  else []

/-- `getValidMoves(piece, pos, checkBoard)`: basic moves plus the pawn and
king special moves.  This is the code's pseudo-legal move generator. -/
def getValidMoves (hm : HasMoved) (ept : Option Pos) (piece : ChessPiece) (pos : Pos)
    (checkBoard : Board) : List Pos :=
  getBasicMoves piece pos checkBoard ++
    (if piece.type = .pawn then getEnPassantMoves ept piece pos else []) ++
    (if piece.type = .king then getCastlingMoves hm piece pos checkBoard else [])

/-- The en-passant detection condition shared verbatim by `wouldBeInCheck` and
`handleMove`: the pawn lands on the target's column, one row *beyond* the
stored target. -/
def epCond (ept : Option Pos) (mp : ChessPiece) (toP : Pos) : Bool :=
  match ept with
  | none => false
  | some target =>
    decide (mp.type = .pawn ∧ toP.col = target.col ∧
      toP.row = (if mp.color = .white then target.row - 1 else target.row + 1))

/-- The hypothetical board built inside `wouldBeInCheck`, with its exact
branch structure and write order (the castling branch reads the rook square
after the king writes). -/
def wbicTestBoard (ept : Option Pos) (fm toP : Pos) (b : Board) (mp : ChessPiece) : Board :=
  if mp.type = .king ∧ (toP.col - fm.col).natAbs = 2 then
    let row := fm.row
    let isKingside := decide (toP.col > fm.col)
    let rookCol : Int := if isKingside then 7 else 0
    let newRookCol : Int := if isKingside then 5 else 3
    let t1 := setSq b toP.row toP.col (some mp)
    let t2 := setSq t1 fm.row fm.col none
    let t3 := setSq t2 row newRookCol (getSq t2 row rookCol)
    setSq t3 row rookCol none
  else if epCond ept mp toP then
    match ept with
    | some target =>
      let t1 := setSq b toP.row toP.col (some mp)
      let t2 := setSq t1 fm.row fm.col none
      setSq t2 target.row target.col none
    | none => b
  else
    let t1 := setSq b toP.row toP.col (some mp)
    setSq t1 fm.row fm.col none

/-- `wouldBeInCheck(from, to, color, checkBoard)`: simulate the move (with the
castling and en-passant special cases) and test whether `color`'s king is
attacked; castling while already in check returns `true` at once. -/
def wouldBeInCheck (ept : Option Pos) (fm toP : Pos) (color : PieceColor) (checkBoard : Board) :
    Bool :=
  match getSq checkBoard fm.row fm.col with
  | none => false
  | some movingPiece =>
    if movingPiece.type = .king ∧ (toP.col - fm.col).natAbs = 2 ∧
        isInCheck color checkBoard = true then
      true
    else
      let testBoard := wbicTestBoard ept fm toP checkBoard movingPiece
      let kingPos := if movingPiece.type = .king then some toP else findKing color testBoard
      match kingPos with
      | none => false
      | some kp => checkSquareUnderAttack kp color testBoard

/-- `isInCheckmate(color, checkBoard)`: in check and no escaping move — but
escapes are searched only through the incomplete `basicGetValidMoves`. -/
def isInCheckmate (ept : Option Pos) (color : PieceColor) (checkBoard : Board) : Bool :=
  if isInCheck color checkBoard then
    !(allSquares.any fun sq =>
      match getSq checkBoard sq.row sq.col with
      | some piece =>
        piece.color = color &&
          (basicGetValidMoves piece sq checkBoard).any fun move =>
            !(wouldBeInCheck ept sq move color checkBoard)
      | none => false)
  else false

/-- `isStalemate(color, checkBoard)`: not in check and no legal move through
the full generator. -/
def isStalemate (hm : HasMoved) (ept : Option Pos) (color : PieceColor) (checkBoard : Board) :
    Bool :=
  if isInCheck color checkBoard then false
  else
    !(allSquares.any fun sq =>
      match getSq checkBoard sq.row sq.col with
      | some piece =>
        piece.color = color &&
          (getValidMoves hm ept piece sq checkBoard).any fun move =>
            !(wouldBeInCheck ept sq move color checkBoard)
      | none => false)

/-- The `gameState` record: `{ isOver, winner, message }`. -/
structure GameState where
  isOver : Bool
  winner : Option PieceColor
  message : String
deriving DecidableEq, Repr

/-- The state owned by `useChessReducer` (UI-only rendering fields kept,
sound playback omitted). -/
structure ChessState where
  board : Board
  currentPlayer : PieceColor
  selectedPiece : Option Pos
  validMoves : List Pos
  hasMoved : HasMoved
  enPassantTarget : Option Pos
  moveHistory : List String
  promotionPawn : Option (Pos × PieceColor)
  gameState : GameState
  halfMoveCount : Nat
  boardPositions : List String
  isAIEnabled : Bool
  isAIThinking : Bool
  showInfo : Bool
  showMoveHistory : Bool
  processingAction : Bool
deriving DecidableEq, Repr

/-- The reducer's action type (`ChessAction`). -/
inductive ChessAction where
  | selectPiece (position : Pos) (piece : ChessPiece) (validMoves : List Pos)
  | deselectPiece
  | movePiece (fm toP : Pos) (nota : String) (isPawnMove isCapture : Bool)
  | handleCastling (kingFrom kingTo rookFrom rookTo : Pos) (kingColor : PieceColor) (nota : String)
  | handleEnPassant (fm toP capturedPawnPosition : Pos) (nota : String)
  | setPromotionPawn (position : Pos) (color : PieceColor)
  | promotePawn (pieceType : PieceType)
  | setGameState (gameState : GameState)
  | newGame
  | toggleInfo
  | toggleMoveHistory
  | toggleAI (enabled : Bool)
  | setAIThinking (isThinking : Bool)
  | setProcessing (isProcessing : Bool)
deriving DecidableEq, Repr

/-- The word the source uses for a color (`'white'` / `'black'`). -/
def colorStr : PieceColor → String
  | .white => "white"
  | .black => "black"

/-- The character of `piece.type[0]` (with `'n'` for knights) used by
`generateBoardPosition`. -/
def pieceLetter : PieceType → Char
  | .pawn => 'p'
  | .knight => 'n'
  | .bishop => 'b'
  | .rook => 'r'
  | .queen => 'q'
  | .king => 'k'

/-- One row of `generateBoardPosition`'s board string. -/
def rowPositionChars : List (Option ChessPiece) → List Char
  | [] => []
  | none :: rest => '.' :: rowPositionChars rest
  | some piece :: rest =>
    (if piece.color = .white then (pieceLetter piece.type).toUpper else pieceLetter piece.type) ::
      rowPositionChars rest

/-- The rows of `generateBoardPosition` joined with `'/'`. -/
def boardPositionChars : Board → List Char
  | [] => []
  | [row] => rowPositionChars row
  | row :: rest => rowPositionChars row ++ '/' :: boardPositionChars rest

/-- `generateBoardPosition(board, player, hasMoved)` from `useChessReducer.ts`
(the component's copy reads the same state fields through its closure):
board layout, then the player, then the derived castling letters. -/
def generateBoardPosition (positionBoard : Board) (positionPlayer : PieceColor)
    (hm : HasMoved) : String :=
  let castlingOptions :=
    (if !hm.whiteKing && !hm.whiteRookRight then "K" else "") ++
    (if !hm.whiteKing && !hm.whiteRookLeft then "Q" else "") ++
    (if !hm.blackKing && !hm.blackRookRight then "k" else "") ++
    (if !hm.blackKing && !hm.blackRookLeft then "q" else "")
  String.mk (boardPositionChars positionBoard) ++ "|" ++ colorStr positionPlayer ++ "|" ++
    castlingOptions

/-- `files` / `ranks` of `generateMoveNotation`. -/
def filesList : List Char := ['a', 'b', 'c', 'd', 'e', 'f', 'g', 'h']

/-- The rank digits, indexed by row. -/
def ranksList : List Char := ['8', '7', '6', '5', '4', '3', '2', '1']

/-- JavaScript array indexing `files[i]` for the two lists above (in-range in
all uses; `'?'` stands for `undefined` otherwise). -/
def charAtIdx (l : List Char) (i : Int) : Char :=
  if h : 0 ≤ i ∧ i.toNat < l.length then l.get ⟨i.toNat, h.2⟩ else '?'

/-- `generateMoveNotation(piece, from, to, isCapture)` (renamed: builds the
algebraic text recorded in `moveHistory`). -/
def generateMoveText (piece : ChessPiece) (fm toP : Pos) (isCapture : Bool) : String :=
  let fromSquare := String.mk [charAtIdx filesList fm.col, charAtIdx ranksList fm.row]
  let toSquare := String.mk [charAtIdx filesList toP.col, charAtIdx ranksList toP.row]
  if piece.type = .king ∧ (toP.col - fm.col).natAbs = 2 then
    if toP.col > fm.col then "O-O" else "O-O-O"
  else
    (if piece.type ≠ .pawn then
      String.mk [if piece.type = .knight then 'N' else (pieceLetter piece.type).toUpper]
    else "") ++
    (if piece.type = .pawn ∧ isCapture = true then String.mk [charAtIdx filesList fm.col]
      else "") ++
    (if isCapture then "x" else "") ++ toSquare

/-- `initializeBoard()`: the standard starting position. -/
def initializeBoard : Board :=
  let backRow : List PieceType := [.rook, .knight, .bishop, .queen, .king, .bishop, .knight, .rook]
  [backRow.map fun t => some ⟨t, .black⟩,
   List.replicate 8 (some ⟨.pawn, .black⟩),
   List.replicate 8 none,
   List.replicate 8 none,
   List.replicate 8 none,
   List.replicate 8 none,
   List.replicate 8 (some ⟨.pawn, .white⟩),
   backRow.map fun t => some ⟨t, .white⟩]

/-- `initialChessState`. -/
def initialChessState : ChessState where
  board := initializeBoard
  currentPlayer := .white
  selectedPiece := none
  validMoves := []
  hasMoved := {}
  enPassantTarget := none
  moveHistory := []
  promotionPawn := none
  gameState := ⟨false, none, ""⟩
  halfMoveCount := 0
  boardPositions := []
  isAIEnabled := false
  isAIThinking := false
  showInfo := false
  showMoveHistory := false
  processingAction := false

/-- `chessReducer(state, action)` from `useChessReducer.ts`. -/
def chessReducer (state : ChessState) (action : ChessAction) : ChessState :=
  match action with
  | .selectPiece position _piece validMoves =>
    if state.gameState.isOver ∨ (state.isAIEnabled ∧ state.currentPlayer = .black) ∨
        state.isAIThinking ∨ state.processingAction then
      state
    else
      { state with selectedPiece := some position, validMoves := validMoves }
  | .deselectPiece => { state with selectedPiece := none, validMoves := [] }
  | .movePiece fm toP nota isPawnMove isCapture =>
    match getSq state.board fm.row fm.col with
    | none => state
    | some piece =>
      let newBoard := setSq (setSq state.board toP.row toP.col (some piece)) fm.row fm.col none
      let newHasMoved :=
        if piece.type = .king then state.hasMoved.setKing piece.color
        else if piece.type = .rook then
          if fm.col = 0 then state.hasMoved.setRookLeft piece.color
          else state.hasMoved.setRookRight piece.color
        else state.hasMoved
      let newHalfMoveCount := if isPawnMove ∨ isCapture then 0 else state.halfMoveCount + 1
      let newEnPassantTarget :=
        if piece.type = .pawn ∧ (toP.row - fm.row).natAbs = 2 then
          some (Pos.mk ((toP.row + fm.row) / 2) toP.col)
        else none
      let nextPlayer := other state.currentPlayer
      let newBoardPosition := generateBoardPosition newBoard nextPlayer newHasMoved
      { state with
        board := newBoard
        currentPlayer := nextPlayer
        selectedPiece := none
        validMoves := []
        hasMoved := newHasMoved
        enPassantTarget := newEnPassantTarget
        moveHistory := state.moveHistory ++ [nota]
        boardPositions := state.boardPositions ++ [newBoardPosition]
        halfMoveCount := newHalfMoveCount }
  | .handleCastling kingFrom kingTo rookFrom rookTo kingColor nota =>
    match getSq state.board kingFrom.row kingFrom.col,
        getSq state.board rookFrom.row rookFrom.col with
    | some king, some rook =>
      let b1 := setSq (setSq state.board kingTo.row kingTo.col (some king))
        kingFrom.row kingFrom.col none
      let newBoard := setSq (setSq b1 rookTo.row rookTo.col (some rook))
        rookFrom.row rookFrom.col none
      let isKingside := kingTo.col > kingFrom.col
      let newHasMoved :=
        if isKingside then (state.hasMoved.setKing kingColor).setRookRight kingColor
        else (state.hasMoved.setKing kingColor).setRookLeft kingColor
      let nextPlayer := other state.currentPlayer
      let newBoardPosition := generateBoardPosition newBoard nextPlayer newHasMoved
      { state with
        board := newBoard
        currentPlayer := nextPlayer
        selectedPiece := none
        validMoves := []
        hasMoved := newHasMoved
        moveHistory := state.moveHistory ++ [nota]
        boardPositions := state.boardPositions ++ [newBoardPosition]
        halfMoveCount := state.halfMoveCount + 1
        enPassantTarget := none }
    | _, _ => state
  | .handleEnPassant fm toP capturedPawnPosition nota =>
    match getSq state.board fm.row fm.col with
    | none => state
    | some pawn =>
      let b1 := setSq (setSq state.board toP.row toP.col (some pawn)) fm.row fm.col none
      let newBoard := setSq b1 capturedPawnPosition.row capturedPawnPosition.col none
      let nextPlayer := other state.currentPlayer
      let newBoardPosition := generateBoardPosition newBoard nextPlayer state.hasMoved
      { state with
        board := newBoard
        currentPlayer := nextPlayer
        selectedPiece := none
        validMoves := []
        enPassantTarget := none
        moveHistory := state.moveHistory ++ [nota]
        boardPositions := state.boardPositions ++ [newBoardPosition]
        halfMoveCount := 0 }
  | .setPromotionPawn position color =>
    let newBoard :=
      match state.selectedPiece with
      | some sp => setSq state.board sp.row sp.col none
      | none => state.board
    { state with
      board := newBoard
      promotionPawn := some (position, color)
      selectedPiece := none
      validMoves := []
      processingAction := true }
  | .promotePawn pieceType =>
    match state.promotionPawn with
    | none => state
    | some (position, color) =>
      let newBoard := setSq state.board position.row position.col (some ⟨pieceType, color⟩)
      let nextPlayer := other state.currentPlayer
      let newBoardPosition := generateBoardPosition newBoard nextPlayer state.hasMoved
      { state with
        board := newBoard
        currentPlayer := nextPlayer
        promotionPawn := none
        halfMoveCount := 0
        boardPositions := state.boardPositions ++ [newBoardPosition]
        processingAction := false }
  | .setGameState gameState => { state with gameState := gameState }
  | .newGame =>
    { initialChessState with
      isAIEnabled := state.isAIEnabled
      processingAction := false
      isAIThinking := false }
  | .toggleInfo => { state with showInfo := !state.showInfo }
  | .toggleMoveHistory => { state with showMoveHistory := !state.showMoveHistory }
  | .toggleAI enabled => { state with isAIEnabled := enabled }
  | .setAIThinking isThinking => { state with isAIThinking := isThinking }
  | .setProcessing isProcessing => { state with processingAction := isProcessing }

/-- `isThreefoldRepetition()`: one occurrence for the (stale) current
position plus its occurrences in the (stale) `boardPositions` list. -/
def isThreefoldRepetition (boardPositions : List String) (currentPosition : String) : Bool :=
  decide (3 ≤ 1 + boardPositions.countP fun p => p = currentPosition)

/-- `isFiftyMoveRule()`. -/
def isFiftyMoveRule (halfMoveCount : Nat) : Bool :=
  decide (100 ≤ halfMoveCount)

/-- `isDraw(checkBoard, checkPlayer)`: stalemate on the given board, or the
repetition/fifty-move tests evaluated on the component's **stale** state
fields (`board`, `currentPlayer`, `hasMoved`, `boardPositions`,
`halfMoveCount` are the pre-dispatch values). -/
def isDraw (s : ChessState) (checkBoard : Board) (checkPlayer : PieceColor) : Bool :=
  isStalemate s.hasMoved s.enPassantTarget checkPlayer checkBoard ||
  isThreefoldRepetition s.boardPositions
    (generateBoardPosition s.board s.currentPlayer s.hasMoved) ||
  isFiftyMoveRule s.halfMoveCount

/-- The draw-message cascade shared by `handleMove` and `handlePromotion`. -/
def drawMessage (s : ChessState) (newBoard : Board) (nextPlayer : PieceColor) : String :=
  if isStalemate s.hasMoved s.enPassantTarget nextPlayer newBoard then
    "Stalemate! Game is a draw!"
  else if isThreefoldRepetition s.boardPositions
      (generateBoardPosition s.board s.currentPlayer s.hasMoved) then
    "Draw by threefold repetition!"
  else if isFiftyMoveRule s.halfMoveCount then "Draw by 50-move rule!"
  else "Draw!"

/-- The game-status recomputation at the end of `handleMove` (run for every
dispatched move except the promotion early-return).  `s` is the pre-move
state captured by the component's closures, `s1` the post-dispatch state.
Note `newBoard` here never moves the castling rook: it is the component's
local simulation. -/
def statusRecompute (s s1 : ChessState) (piece : ChessPiece) (fm toP : Pos) : ChessState :=
  let nb1 := setSq (setSq s.board toP.row toP.col (some piece)) fm.row fm.col none
  let newBoard :=
    if piece.type = .pawn ∧ epCond s.enPassantTarget piece toP = true then
      match s.enPassantTarget with
      | some target => setSq nb1 target.row target.col none
      | none => nb1
    else nb1
  let nextPlayer := other s.currentPlayer
  let g :=
    if isInCheck nextPlayer newBoard then
      if isInCheckmate s.enPassantTarget nextPlayer newBoard then
        GameState.mk true (some s.currentPlayer)
          ("Checkmate! " ++ colorStr s.currentPlayer ++ " wins!")
      else { s.gameState with message := colorStr nextPlayer ++ " is in check!" }
    else if isDraw s newBoard nextPlayer then
      GameState.mk true none (drawMessage s newBoard nextPlayer)
    else { s.gameState with message := "" }
  { s1 with gameState := g }

/-- `handleMove(from, to)` from `ChessGame.tsx`: validate against
`getValidMoves` and `wouldBeInCheck`, dispatch the appropriate reducer
action, then (except for the promotion early-return) recompute the game
status from the pre-move closure state. -/
def handleMove (s : ChessState) (fm toP : Pos) : ChessState :=
  match getSq s.board fm.row fm.col with
  | none => s
  | some piece =>
    if ¬ (toP ∈ getValidMoves s.hasMoved s.enPassantTarget piece fm s.board) ∨
        wouldBeInCheck s.enPassantTarget fm toP s.currentPlayer s.board = true then
      s
    else
      let isCapture := (getSq s.board toP.row toP.col).isSome
      let isPawnMove := piece.type = .pawn
      let moveText := generateMoveText piece fm toP isCapture
      if piece.type = .king ∧ (toP.col - fm.col).natAbs = 2 then
        let isKingside := toP.col > fm.col
        let rookFromCol : Int := if isKingside then 7 else 0
        let rookToCol : Int := if isKingside then 5 else 3
        let s1 := chessReducer s (.handleCastling fm toP ⟨fm.row, rookFromCol⟩
          ⟨fm.row, rookToCol⟩ piece.color moveText)
        statusRecompute s s1 piece fm toP
      else if piece.type = .pawn then
        if epCond s.enPassantTarget piece toP then
          match s.enPassantTarget with
          | some target =>
            let s1 := chessReducer s (.handleEnPassant fm toP target moveText)
            statusRecompute s s1 piece fm toP
          | none => s
        else if toP.row = 0 ∨ toP.row = 7 then
          chessReducer s (.setPromotionPawn toP piece.color)
        else
          let s1 := chessReducer s (.movePiece fm toP moveText isPawnMove isCapture)
          statusRecompute s s1 piece fm toP
      else
        let s1 := chessReducer s (.movePiece fm toP moveText isPawnMove isCapture)
        statusRecompute s s1 piece fm toP

/-- `handlePromotion(pieceType)`: dispatch `PROMOTE_PAWN`, then recompute the
game status from this callback's closure state (the state in which the
promotion dialog was open). -/
def handlePromotion (s : ChessState) (pieceType : PieceType) : ChessState :=
  match s.promotionPawn with
  | none => s
  | some (position, color) =>
    let s1 := chessReducer s (.promotePawn pieceType)
    let newBoard := setSq s.board position.row position.col (some ⟨pieceType, color⟩)
    let nextPlayer := other s.currentPlayer
    let g :=
      if isInCheck nextPlayer newBoard then
        if isInCheckmate s.enPassantTarget nextPlayer newBoard then
          GameState.mk true (some s.currentPlayer)
            ("Checkmate! " ++ colorStr s.currentPlayer ++ " wins!")
        else { s.gameState with message := colorStr nextPlayer ++ " is in check!" }
      else if isDraw s newBoard nextPlayer then
        GameState.mk true none (drawMessage s newBoard nextPlayer)
      else { s.gameState with message := "" }
    { s1 with gameState := g }

/-- One full move application as driven by the UI: `handleMove`, followed by
the promotion choice when `handleMove` opened the promotion dialog. -/
def applyMove (s : ChessState) (fm toP : Pos) (promo : PieceType) : ChessState :=
  let s' := handleMove s fm toP
  match s'.promotionPawn with
  | some _ => handlePromotion s' promo
  | none => s'

/-- The legal-move set the UI computes for the piece on a square
(`getValidMoves` filtered through `wouldBeInCheck`, as in
`handleSquareClick`); empty when the square is empty. -/
def legalMoves (s : ChessState) (fm : Pos) : List Pos :=
  match getSq s.board fm.row fm.col with
  | none => []
  | some piece =>
    (getValidMoves s.hasMoved s.enPassantTarget piece fm s.board).filter fun move =>
      !(wouldBeInCheck s.enPassantTarget fm move s.currentPlayer s.board)

/-- The pseudo-legal move set for the piece on a square (`getValidMoves`
before the check filter). -/
def pseudoLegalMoves (s : ChessState) (fm : Pos) : List Pos :=
  match getSq s.board fm.row fm.col with
  | none => []
  | some piece => getValidMoves s.hasMoved s.enPassantTarget piece fm s.board

/-! ### UCI move utilities (`types/chess.ts` and `ai/move-parser.ts`) -/

/-- The internal `Move` type (`from`/`to` renamed to `fm`/`toP`). -/
structure Move where
  fm : Pos
  toP : Pos
  promotion : Option PieceType
deriving DecidableEq, Repr

/-- JavaScript `list.indexOf(c)`: the index, or `-1` when absent (also for an
`undefined` argument from out-of-range string access). -/
def jsIndexOf (l : List Char) (c : Option Char) : Int :=
  match c with
  | none => -1
  | some ch =>
    match l.findIdx? fun x => x = ch with
    | some n => (n : Int)
    | none => -1

/-- `algebraicToPosition` from `types/chess.ts`: unvalidated `indexOf`
lookups. -/
def algebraicToPositionTS (algebraic : String) : Pos :=
  ⟨jsIndexOf ranksList algebraic.data[1]?, jsIndexOf filesList algebraic.data[0]?⟩

/-- The promotion-letter map of `uciToMove` in `types/chess.ts` (an object
lookup: unknown letters give `undefined`). -/
def promotionMapTS (c : Char) : Option PieceType :=
  if c = 'q' then some .queen
  else if c = 'r' then some .rook
  else if c = 'b' then some .bishop
  else if c = 'n' then some .knight
  else none

/-- `uciToMove` from `types/chess.ts`: no validation, out-of-range
coordinates flow through as `-1`. -/
def uciToMoveTS (uci : String) : Move :=
  let d := uci.data
  let fm := algebraicToPositionTS (String.mk (d.take 2))
  let toP := algebraicToPositionTS (String.mk ((d.drop 2).take 2))
  let promotion :=
    if d.length = 5 then
      match d[4]? with
      | some c => promotionMapTS c
      | none => none
    else none
  ⟨fm, toP, promotion⟩

/-- `isValidUciString` from `ai/move-parser.ts`. -/
def isValidUciStringMP (uciString : String) : Bool :=
  match uciString.data with
  | [c0, c1, c2, c3] =>
    decide (¬ (c0 < 'a' ∨ c0 > 'h' ∨ c2 < 'a' ∨ c2 > 'h') ∧
      ¬ (c1 < '1' ∨ c1 > '8' ∨ c3 < '1' ∨ c3 > '8'))
  | [c0, c1, c2, c3, c4] =>
    decide (¬ (c0 < 'a' ∨ c0 > 'h' ∨ c2 < 'a' ∨ c2 > 'h') ∧
      ¬ (c1 < '1' ∨ c1 > '8' ∨ c3 < '1' ∨ c3 > '8') ∧
      (c4.toLower = 'q' ∨ c4.toLower = 'r' ∨ c4.toLower = 'b' ∨ c4.toLower = 'n'))
  | _ => false

/-- `uciCharToPieceType` from `ai/move-parser.ts` (throws on anything but
q/r/b/n). -/
def uciCharToPieceTypeMP (c : Char) : Except String PieceType :=
  if c.toLower = 'q' then .ok .queen
  else if c.toLower = 'r' then .ok .rook
  else if c.toLower = 'b' then .ok .bishop
  else if c.toLower = 'n' then .ok .knight
  else .error ("Invalid promotion character: " ++ String.mk [c])

/-- `parseInt` on a single digit character. -/
def digitVal (c : Char) : Int := (c.toNat : Int) - 48

/-- `uciToMove` from `ai/move-parser.ts`: the validated duplicate, throwing
on malformed input. -/
def uciToMoveMP (uciString : String) : Except String Move := do
  if ¬ isValidUciStringMP uciString then
    throw ("Invalid UCI move string: " ++ uciString)
  let d := uciString.data
  let fromCol : Int := ((d.getD 0 ' ').toNat : Int) - 97
  let fromRow : Int := 8 - digitVal (d.getD 1 ' ')
  let toCol : Int := ((d.getD 2 ' ').toNat : Int) - 97
  let toRow : Int := 8 - digitVal (d.getD 3 ' ')
  let promotion ←
    if d.length = 5 then
      (uciCharToPieceTypeMP (d.getD 4 ' ')).map some
    else .ok none
  return ⟨⟨fromRow, fromCol⟩, ⟨toRow, toCol⟩, promotion⟩

/-! ### Board access lemmas (for the legality-preservation proof) -/

/-- An 8×8 board (the shape every board built by the engine has). -/
abbrev boardWf (b : Board) : Prop :=
  b.length = 8 ∧ ∀ row ∈ b, row.length = 8

/-- Writing then reading the same in-range cell of a row. -/
theorem getRow_setRow_same (row : List (Option ChessPiece)) (c : Int) (v : Option ChessPiece)
    (h0 : 0 ≤ c) (hc : c < (row.length : Int)) : getRow (setRow row c v) c = v := by
  induction row generalizing c with
  | nil => simp at hc; omega
  | cons x xs ih =>
    by_cases hz : c = 0
    · subst hz
      simp [setRow, getRow]
    · have h1 : 0 ≤ c - 1 := by omega
      have h2 : c - 1 < (xs.length : Int) := by
        simp at hc
        omega
      simp only [setRow, if_neg hz, getRow, if_neg hz,
        if_neg (show ¬ c < 0 by omega)]
      exact ih (c - 1) h1 h2

/-- Writing one cell leaves every other column unchanged. -/
theorem getRow_setRow_other (row : List (Option ChessPiece)) (c c' : Int)
    (v : Option ChessPiece) (h : c' ≠ c) : getRow (setRow row c v) c' = getRow row c' := by
  induction row generalizing c c' with
  | nil => simp [setRow]
  | cons x xs ih =>
    by_cases hz : c = 0
    · subst hz
      simp only [setRow, if_pos rfl, getRow, if_neg h]
    · simp only [setRow, if_neg hz, getRow]
      by_cases hz' : c' = 0
      · simp [hz']
      · simp only [if_neg hz']
        by_cases hneg : c' < 0
        · simp [hneg]
        · simp only [if_neg hneg]
          exact ih (c - 1) (c' - 1) (by omega)

/-- `setRow` preserves length. -/
theorem setRow_length (row : List (Option ChessPiece)) (c : Int) (v : Option ChessPiece) :
    (setRow row c v).length = row.length := by
  induction row generalizing c with
  | nil => rfl
  | cons x xs ih =>
    by_cases hz : c = 0 <;> simp [setRow, hz, ih]

/-- Writing then reading the same in-range square (rows of width 8). -/
theorem getSq_setSq_same_aux (b : Board) (r c : Int) (v : Option ChessPiece)
    (hrows : ∀ row ∈ b, row.length = 8) (hr0 : 0 ≤ r) (hr : r < (b.length : Int))
    (hc0 : 0 ≤ c) (hc : c < 8) : getSq (setSq b r c v) r c = v := by
  induction b generalizing r with
  | nil => simp at hr; omega
  | cons row rest ih =>
    by_cases hz : r = 0
    · subst hz
      simp only [setSq, if_pos rfl, getSq, if_pos rfl]
      apply getRow_setRow_same row c v hc0
      rw [hrows row (List.mem_cons_self ..)]
      exact_mod_cast hc
    · simp only [setSq, if_neg hz, getSq, if_neg hz, if_neg (show ¬ r < 0 by omega)]
      refine ih (r - 1) (fun row' hrow' => hrows row' (List.mem_cons_of_mem _ hrow'))
        (by omega) ?_
      simp at hr ⊢
      omega

/-- Writing then reading the same in-range square of an 8×8 board. -/
theorem getSq_setSq_same (b : Board) (r c : Int) (v : Option ChessPiece)
    (hwf : boardWf b) (hr0 : 0 ≤ r) (hr : r < 8) (hc0 : 0 ≤ c) (hc : c < 8) :
    getSq (setSq b r c v) r c = v := by
  apply getSq_setSq_same_aux b r c v hwf.2 hr0 _ hc0 hc
  rw [hwf.1]
  exact_mod_cast hr

/-- Writing one square leaves every other square unchanged. -/
theorem getSq_setSq_other (b : Board) (r c r' c' : Int) (v : Option ChessPiece)
    (h : r' ≠ r ∨ c' ≠ c) : getSq (setSq b r c v) r' c' = getSq b r' c' := by
  induction b generalizing r r' with
  | nil => simp [setSq]
  | cons row rest ih =>
    by_cases hz : r = 0
    · subst hz
      simp only [setSq, if_pos rfl, getSq]
      by_cases hz' : r' = 0
      · subst hz'
        simp only [if_pos rfl]
        rcases h with h | h
        · exact absurd rfl h
        · exact getRow_setRow_other row c c' v h
      · simp [hz']
    · simp only [setSq, if_neg hz, getSq]
      by_cases hz' : r' = 0
      · simp [hz']
      · simp only [if_neg hz']
        by_cases hneg : r' < 0
        · simp [hneg]
        · simp only [if_neg hneg]
          rcases h with h | h
          · exact ih (r - 1) (r' - 1) (Or.inl (by omega))
          · exact ih (r - 1) (r' - 1) (Or.inr h)

/-- `setSq` preserves the number of rows. -/
theorem setSq_length (b : Board) (r c : Int) (v : Option ChessPiece) :
    (setSq b r c v).length = b.length := by
  induction b generalizing r with
  | nil => rfl
  | cons row rest ih => by_cases hz : r = 0 <;> simp [setSq, hz, ih]

/-- `setSq` preserves the widths of all rows. -/
theorem setSq_rows (b : Board) (r c : Int) (v : Option ChessPiece)
    (hrows : ∀ row ∈ b, row.length = 8) : ∀ row ∈ setSq b r c v, row.length = 8 := by
  induction b generalizing r with
  | nil => simp [setSq]
  | cons row rest ih =>
    intro row' hrow'
    by_cases hz : r = 0
    · subst hz
      simp only [setSq, if_pos rfl] at hrow'
      rcases List.mem_cons.mp hrow' with rfl | hmem
      · rw [setRow_length]
        exact hrows row (List.mem_cons_self ..)
      · exact hrows row' (List.mem_cons_of_mem _ hmem)
    · simp only [setSq, if_neg hz] at hrow'
      rcases List.mem_cons.mp hrow' with rfl | hmem
      · exact hrows row' (List.mem_cons_self ..)
      · exact ih (r - 1) (fun x hx => hrows x (List.mem_cons_of_mem _ hx)) row' hmem

/-- `setSq` preserves well-formedness. -/
theorem boardWf_setSq (b : Board) (r c : Int) (v : Option ChessPiece) (hwf : boardWf b) :
    boardWf (setSq b r c v) :=
  ⟨by rw [setSq_length]; exact hwf.1, setSq_rows b r c v hwf.2⟩

/-- An out-of-range column reads `none`. -/
theorem getRow_oob (row : List (Option ChessPiece)) (c : Int)
    (h : c < 0 ∨ (row.length : Int) ≤ c) : getRow row c = none := by
  induction row generalizing c with
  | nil => rfl
  | cons x xs ih =>
    rcases h with h | h
    · simp only [getRow, if_neg (show ¬ c = 0 by omega), if_pos h]
    · simp only [List.length_cons] at h
      have hz : ¬ c = 0 := by
        push_cast at h
        omega
      simp only [getRow, if_neg hz]
      by_cases hneg : c < 0
      · simp [hneg]
      · simp only [if_neg hneg]
        refine ih (c - 1) (Or.inr ?_)
        push_cast at h ⊢
        omega

/-- A successful square read bounds the row index. -/
theorem getSq_some_row_lt (b : Board) (r c : Int) (x : ChessPiece)
    (h : getSq b r c = some x) : 0 ≤ r ∧ r < (b.length : Int) := by
  induction b generalizing r with
  | nil => cases h
  | cons row rest ih =>
    by_cases hz : r = 0
    · subst hz
      simp
    · simp only [getSq, if_neg hz] at h
      by_cases hneg : r < 0
      · rw [if_pos hneg] at h; cases h
      · rw [if_neg hneg] at h
        have := ih (r - 1) h
        simp at this ⊢
        omega

/-- A successful square read comes from some row of the board. -/
theorem getSq_row_entry (b : Board) (r c : Int) (x : ChessPiece)
    (h : getSq b r c = some x) : ∃ row ∈ b, getRow row c = some x := by
  induction b generalizing r with
  | nil => cases h
  | cons row rest ih =>
    by_cases hz : r = 0
    · subst hz
      simp only [getSq, if_pos rfl] at h
      exact ⟨row, List.mem_cons_self .., h⟩
    · simp only [getSq, if_neg hz] at h
      by_cases hneg : r < 0
      · rw [if_pos hneg] at h; cases h
      · rw [if_neg hneg] at h
        obtain ⟨row', hmem, hg⟩ := ih (r - 1) h
        exact ⟨row', List.mem_cons_of_mem _ hmem, hg⟩

/-- A successful row read bounds the column index. -/
theorem getRow_some_col (row : List (Option ChessPiece)) (c : Int) (x : ChessPiece)
    (h : getRow row c = some x) : 0 ≤ c ∧ c < (row.length : Int) := by
  induction row generalizing c with
  | nil => cases h
  | cons y ys ih =>
    by_cases hz : c = 0
    · subst hz
      simp
    · simp only [getRow, if_neg hz] at h
      by_cases hneg : c < 0
      · rw [if_pos hneg] at h; cases h
      · rw [if_neg hneg] at h
        have := ih (c - 1) h
        simp at this ⊢
        omega

/-- Occupied squares of an 8×8 board are in range. -/
theorem getSq_some_inBounds (b : Board) (r c : Int) (x : ChessPiece)
    (hwf : boardWf b) (h : getSq b r c = some x) :
    0 ≤ r ∧ r < 8 ∧ 0 ≤ c ∧ c < 8 := by
  have hr := getSq_some_row_lt b r c x h
  obtain ⟨row, hmem, hg⟩ := getSq_row_entry b r c x h
  have hc := getRow_some_col row c x hg
  rw [hwf.2 row hmem] at hc
  rw [hwf.1] at hr
  refine ⟨hr.1, ?_, hc.1, ?_⟩
  · exact_mod_cast hr.2
  · exact_mod_cast hc.2

/-- Membership in the square enumeration is exactly in-boundedness. -/
theorem mem_allSquares (p : Pos) :
    p ∈ allSquares ↔ 0 ≤ p.row ∧ p.row < 8 ∧ 0 ≤ p.col ∧ p.col < 8 := by
  have hEq : allSquares = (List.range 64).map fun i => Pos.mk ((i / 8 : Nat) : Int)
      ((i % 8 : Nat) : Int) := by decide
  rw [hEq]
  obtain ⟨r, c⟩ := p
  simp only [List.mem_map, List.mem_range]
  constructor
  · rintro ⟨i, hi, heq⟩
    simp only [Pos.mk.injEq] at heq
    obtain ⟨hr, hc⟩ := heq
    subst hr
    subst hc
    refine ⟨by omega, by omega, by omega, by omega⟩
  · rintro ⟨h1, h2, h3, h4⟩
    refine ⟨r.toNat * 8 + c.toNat, by omega, ?_⟩
    simp only [Pos.mk.injEq]
    constructor <;> omega

/-- `List.any` only depends on the pointwise values. -/
theorem any_congr_mem {α : Type} (l : List α) (f g : α → Bool)
    (h : ∀ x ∈ l, f x = g x) : l.any f = l.any g := by
  induction l with
  | nil => rfl
  | cons x xs ih =>
    simp only [List.any_cons, h x (List.mem_cons_self ..),
      ih fun y hy => h y (List.mem_cons_of_mem _ hy)]

/-- Two boards that agree outside one square, which is occupied by a
`col`-colored piece on both. -/
def AgreeX (b b' : Board) (q : Pos) (col : PieceColor) : Prop :=
  (∀ r c, (r ≠ q.row ∨ c ≠ q.col) → getSq b r c = getSq b' r c) ∧
  (∃ x, getSq b q.row q.col = some x ∧ x.color = col) ∧
  (∃ y, getSq b' q.row q.col = some y ∧ y.color = col)

/-- A defender-colored square never counts as an attacker, so the offset
test agrees on `AgreeX` boards. -/
theorem offsetAttackedBy_congr (b b' : Board) (q : Pos) (col : PieceColor)
    (hag : AgreeX b b' q col) (t : PieceType) (r c : Int) :
    offsetAttackedBy b col t r c = offsetAttackedBy b' col t r c := by
  obtain ⟨hout, ⟨x, hx, hxc⟩, ⟨y, hy, hyc⟩⟩ := hag
  by_cases hq : r = q.row ∧ c = q.col
  · obtain ⟨rfl, rfl⟩ := hq
    simp only [offsetAttackedBy, hx, hy, hxc, hyc]
    simp
  · rw [offsetAttackedBy, offsetAttackedBy, hout r c (by tauto)]

/-- Sliding attack rays agree on `AgreeX` boards. -/
theorem rayHit_congr (b b' : Board) (q : Pos) (col : PieceColor)
    (hag : AgreeX b b' q col) (t1 t2 : PieceType) (r c dr dc : Int) (n : Nat) :
    rayHit b col t1 t2 r c dr dc n = rayHit b' col t1 t2 r c dr dc n := by
  obtain ⟨hout, ⟨x, hx, hxc⟩, ⟨y, hy, hyc⟩⟩ := hag
  induction n generalizing r c with
  | zero => rfl
  | succ n ih =>
    by_cases hq : r = q.row ∧ c = q.col
    · obtain ⟨rfl, rfl⟩ := hq
      simp only [rayHit, hx, hy, hxc, hyc]
      simp
    · simp only [rayHit, hout r c (by tauto)]
      cases getSq b' r c with
      | some p => rfl
      | none =>
        by_cases hib : isInBounds r c = true <;> simp [hib, ih]

/-- The attack scan agrees on `AgreeX` boards. -/
theorem checkSquareUnderAttack_congr (b b' : Board) (q : Pos) (col : PieceColor)
    (hag : AgreeX b b' q col) (p : Pos) :
    checkSquareUnderAttack p col b = checkSquareUnderAttack p col b' := by
  unfold checkSquareUnderAttack
  simp only [offsetAttackedBy_congr b b' q col hag, rayHit_congr b b' q col hag]

/-- The king scan agrees on boards that differ only at one square that is
not a king of the scanned color on either board. -/
theorem findKing_congr (b b' : Board) (q : Pos) (color : PieceColor)
    (hout : ∀ r c, (r ≠ q.row ∨ c ≠ q.col) → getSq b r c = getSq b' r c)
    (hbq : getSq b q.row q.col ≠ some ⟨.king, color⟩)
    (hbq' : getSq b' q.row q.col ≠ some ⟨.king, color⟩) :
    findKing color b = findKing color b' := by
  unfold findKing
  rw [List.filter_congr]
  intro p _
  by_cases hq : p.row = q.row ∧ p.col = q.col
  · obtain ⟨h1, h2⟩ := hq
    rw [h1, h2]
    simp [hbq, hbq']
  · rw [hout p.row p.col (by tauto)]

/-- The row-major king scan finds the unique king. -/
theorem findKing_eq_of_unique (b : Board) (color : PieceColor) (q : Pos)
    (hq : getSq b q.row q.col = some ⟨.king, color⟩) (hmem : q ∈ allSquares)
    (huniq : ∀ p ∈ allSquares, getSq b p.row p.col = some ⟨.king, color⟩ → p = q) :
    findKing color b = some q := by
  unfold findKing
  have hqf : q ∈ allSquares.filter fun p =>
      decide (getSq b p.row p.col = some ⟨.king, color⟩) :=
    List.mem_filter.mpr ⟨hmem, by simp [hq]⟩
  cases hfil : allSquares.filter fun p =>
      decide (getSq b p.row p.col = some ⟨.king, color⟩) with
  | nil => rw [hfil] at hqf; cases hqf
  | cons a rest =>
    have ha : a ∈ allSquares ∧ getSq b a.row a.col = some ⟨.king, color⟩ := by
      have := List.mem_filter.mp (hfil ▸ List.mem_cons_self ..)
      exact ⟨this.1, by simpa using this.2⟩
    simp [huniq a ha.1 ha.2]

/-- A board with no king of the given color anywhere is scanned to `none`. -/
theorem findKing_eq_none (b : Board) (color : PieceColor)
    (h : ∀ p ∈ allSquares, getSq b p.row p.col ≠ some ⟨.king, color⟩) :
    findKing color b = none := by
  unfold findKing
  rw [List.filter_eq_nil_iff.mpr fun p hp => by simpa using h p hp]
  rfl

/-- A successful king/knight step entry pins the destination and its
boundedness. -/
theorem stepTo_some (b : Board) (pc : PieceColor) (r c : Int) (toP : Pos)
    (h : (if isInBounds r c then
            match getSq b r c with
            | some t => if t.color ≠ pc then some (Pos.mk r c) else none
            | none => some (Pos.mk r c)
          else none) = some toP) : toP = ⟨r, c⟩ ∧ isInBounds r c = true := by
  by_cases hib : isInBounds r c
  · rw [if_pos hib] at h
    refine ⟨?_, by simpa using hib⟩
    cases hg : getSq b r c with
    | none =>
      rw [hg] at h
      dsimp only at h
      exact (Option.some.inj h).symm
    | some t =>
      rw [hg] at h
      dsimp only at h
      by_cases hc : t.color ≠ pc
      · rw [if_pos hc] at h
        exact (Option.some.inj h).symm
      · rw [if_neg hc] at h
        exact Option.noConfusion h
  · rw [if_neg (by simpa using hib)] at h
    exact Option.noConfusion h

/-- A successful pawn-capture entry pins the destination and its
boundedness. -/
theorem capTo_some (b : Board) (pc : PieceColor) (r c : Int) (toP : Pos)
    (h : (if isInBounds r c then
            match getSq b r c with
            | some t => if t.color ≠ pc then some (Pos.mk r c) else none
            | none => none
          else none) = some toP) : toP = ⟨r, c⟩ ∧ isInBounds r c = true := by
  by_cases hib : isInBounds r c
  · rw [if_pos hib] at h
    refine ⟨?_, by simpa using hib⟩
    cases hg : getSq b r c with
    | none =>
      rw [hg] at h
      dsimp only at h
      exact Option.noConfusion h
    | some t =>
      rw [hg] at h
      dsimp only at h
      by_cases hc : t.color ≠ pc
      · rw [if_pos hc] at h
        exact (Option.some.inj h).symm
      · rw [if_neg hc] at h
        exact Option.noConfusion h
  · rw [if_neg (by simpa using hib)] at h
    exact Option.noConfusion h

/-- Membership in an if-guarded singleton forces the element. -/
theorem mem_ite_singleton {α : Type} (P : Prop) [Decidable P] (a toP : α)
    (h : toP ∈ (if P then [a] else [])) : toP = a := by
  split at h
  · exact List.mem_singleton.mp h
  · exact absurd h (List.not_mem_nil _)

/-- Basic king steps move at most one file and stay on the board. -/
theorem king_basic_shape (c : PieceColor) (pos toP : Pos) (b : Board)
    (h : toP ∈ getBasicMoves ⟨.king, c⟩ pos b) :
    (toP.col - pos.col).natAbs ≤ 1 ∧ 0 ≤ toP.row ∧ toP.row < 8 ∧ 0 ≤ toP.col ∧ toP.col < 8 := by
  simp only [getBasicMoves, List.mem_filterMap] at h
  obtain ⟨⟨ro, co⟩, hmem, hf⟩ := h
  obtain ⟨rfl, hib⟩ := stepTo_some b c (pos.row + ro) (pos.col + co) _ hf
  simp only [isInBounds, decide_eq_true_eq] at hib
  fin_cases hmem <;> (dsimp only at hib ⊢; omega)

/-- Castling-generator moves: the mover was not in check and the destination
is the g- or c-square of the color's home row. -/
theorem castle_gen_shape (hm : HasMoved) (piece : ChessPiece) (pos toP : Pos) (b : Board)
    (h : toP ∈ getCastlingMoves hm piece pos b) :
    isInCheck piece.color b = false ∧
    (toP = Pos.mk (if piece.color = .white then 7 else 0) 6 ∨
     toP = Pos.mk (if piece.color = .white then 7 else 0) 2) := by
  unfold getCastlingMoves at h
  split at h
  case isFalse => cases h
  case isTrue hcond =>
    refine ⟨hcond.2.2, ?_⟩
    simp only [List.mem_append] at h
    rcases h with h | h
    · exact Or.inl (mem_ite_singleton _ _ _ h)
    · exact Or.inr (mem_ite_singleton _ _ _ h)

/-- Forward pawn pushes, for a generic direction `d ∈ {-1, 1}` and start
row: the destination changes rank and stays on the board. -/
theorem pawn_fwd_shape (b : Board) (pos toP : Pos) (d sr : Int) (hd : d = -1 ∨ d = 1)
    (h : toP ∈ (if isInBounds (pos.row + d) pos.col &&
            (getSq b (pos.row + d) pos.col).isNone then
          Pos.mk (pos.row + d) pos.col ::
            (if pos.row = sr && isInBounds (pos.row + 2 * d) pos.col &&
                (getSq b (pos.row + 2 * d) pos.col).isNone then
              [Pos.mk (pos.row + 2 * d) pos.col]
            else [])
        else [])) :
    toP.row ≠ pos.row ∧ 0 ≤ toP.row ∧ toP.row < 8 ∧ 0 ≤ toP.col ∧ toP.col < 8 := by
  rcases hd with rfl | rfl <;>
  · split at h
    case isFalse => exact absurd h (List.not_mem_nil _)
    case isTrue hc =>
      simp only [Bool.and_eq_true] at hc
      have hib1 := hc.1
      simp only [isInBounds, decide_eq_true_eq] at hib1
      rcases List.mem_cons.mp h with rfl | h2
      · dsimp only
        omega
      · split at h2
        case isFalse => exact absurd h2 (List.not_mem_nil _)
        case isTrue hc2 =>
          simp only [Bool.and_eq_true] at hc2
          have hib2 := hc2.1.2
          simp only [isInBounds, decide_eq_true_eq] at hib2
          rcases List.mem_singleton.mp h2 with rfl
          dsimp only
          omega

/-- Basic pawn moves change rank and stay on the board. -/
theorem pawn_basic_shape (c : PieceColor) (pos toP : Pos) (b : Board)
    (h : toP ∈ getBasicMoves ⟨.pawn, c⟩ pos b) :
    toP.row ≠ pos.row ∧ 0 ≤ toP.row ∧ toP.row < 8 ∧ 0 ≤ toP.col ∧ toP.col < 8 := by
  simp only [getBasicMoves, List.mem_append] at h
  have hD : (if c = PieceColor.white then (-1 : Int) else 1) = -1 ∨
      (if c = PieceColor.white then (-1 : Int) else 1) = 1 := by
    split
    · exact Or.inl rfl
    · exact Or.inr rfl
  rcases h with h | h
  · exact pawn_fwd_shape b pos toP _ _ hD h
  · simp only [List.mem_filterMap] at h
    obtain ⟨off, hoff, hf⟩ := h
    obtain ⟨rfl, hib⟩ := capTo_some b c _ _ _ hf
    simp only [isInBounds, decide_eq_true_eq] at hib
    refine ⟨?_, by dsimp only; omega⟩
    dsimp only
    rcases hD with hD | hD <;> rw [hD] <;> omega

/-- En-passant-generator moves land on rank row 2 (white) or 5 (black), one
row ahead of the capturing pawn. -/
theorem ep_gen_shape (ept : Option Pos) (piece : ChessPiece) (pos toP : Pos)
    (h : toP ∈ getEnPassantMoves ept piece pos) :
    toP.row = (if piece.color = .white then (2 : Int) else 5) ∧ toP.row ≠ pos.row := by
  cases ept with
  | none =>
    simp only [getEnPassantMoves] at h
    exact absurd h (List.not_mem_nil _)
  | some target =>
    simp only [getEnPassantMoves] at h
    by_cases hcond : piece.type = .pawn ∧
        pos.row = (if piece.color = .white then (3 : Int) else 4) ∧
        (pos.col - target.col).natAbs = 1
    · rw [if_pos hcond] at h
      rcases List.mem_singleton.mp h with rfl
      obtain ⟨-, hrow, -⟩ := hcond
      constructor
      · dsimp only
        rw [hrow]
        split <;> simp
      · dsimp only
        rw [hrow]
        split <;> omega
    · rw [if_neg hcond] at h
      exact absurd h (List.not_mem_nil _)

/-! ### FEN codec (`utils/fen.ts`)

The codec is embedded over `List Char`; the exported entry points wrap
`String`.  `array.join(sep)` is modelled by `joinWith`, `string.split(sep)`
by `jsSplit` (both with exact JavaScript semantics for these inputs). -/

/-- The result record of `fenToBoard`. -/
structure FenParts where
  board : Board
  currentPlayer : PieceColor
  castlingRights : HasMoved
  enPassantTarget : Option Pos
deriving DecidableEq, Repr

/-- `pieceToFENChar`: lowercase piece letter, uppercased for white. -/
def pieceToFENChar (piece : ChessPiece) : Char :=
  if piece.color = .white then (pieceLetter piece.type).toUpper else pieceLetter piece.type

/-- The per-rank run-length encoding loop of `boardPositionToFEN`; `e` is the
running `emptySquares` counter. -/
def rankToFENAux : List (Option ChessPiece) → Nat → List Char
  | [], e => if e > 0 then (toString e).data else []
  | none :: rest, e => rankToFENAux rest (e + 1)
  | some p :: rest, e =>
    (if e > 0 then (toString e).data else []) ++ pieceToFENChar p :: rankToFENAux rest 0

/-- JavaScript `array.join(sep)` for character-list fields. -/
def joinWith (sep : Char) : List (List Char) → List Char
  | [] => []
  | [x] => x
  | x :: rest => x ++ sep :: joinWith sep rest

/-- `boardPositionToFEN(board)`: ranks joined with `'/'`. -/
def boardPositionToFEN (board : Board) : List Char :=
  joinWith '/' (board.map fun row => rankToFENAux row 0)

/-- `canWhiteKingside` as derived in `castlingRightsToFEN`. -/
def canWhiteKingside (cr : HasMoved) : Bool := !cr.whiteKing && !cr.whiteRookRight

/-- `canWhiteQueenside` as derived in `castlingRightsToFEN`. -/
def canWhiteQueenside (cr : HasMoved) : Bool := !cr.whiteKing && !cr.whiteRookLeft

/-- `canBlackKingside` as derived in `castlingRightsToFEN`. -/
def canBlackKingside (cr : HasMoved) : Bool := !cr.blackKing && !cr.blackRookRight

/-- `canBlackQueenside` as derived in `castlingRightsToFEN`. -/
def canBlackQueenside (cr : HasMoved) : Bool := !cr.blackKing && !cr.blackRookLeft

/-- `castlingRightsToFEN(castlingRights)`. -/
def castlingRightsToFEN (cr : HasMoved) : List Char :=
  let castling :=
    (if canWhiteKingside cr then ['K'] else []) ++
    (if canWhiteQueenside cr then ['Q'] else []) ++
    (if canBlackKingside cr then ['k'] else []) ++
    (if canBlackQueenside cr then ['q'] else [])
  if castling = [] then ['-'] else castling

/-- `enPassantToFEN(enPassantTarget)`. -/
def enPassantToFEN (ept : Option Pos) : List Char :=
  match ept with
  | none => ['-']
  | some t => Char.ofNat (97 + t.col).toNat :: (toString (8 - t.row)).data

/-- `boardToFEN(board, currentPlayer, castlingRights, enPassantTarget)`:
the six space-separated fields, halfmove and fullmove hard-coded to 0 / 1. -/
def boardToFEN (board : Board) (currentPlayer : PieceColor) (castlingRights : HasMoved)
    (enPassantTarget : Option Pos) : String :=
  String.mk (joinWith ' '
    [boardPositionToFEN board,
     [if currentPlayer = .white then 'w' else 'b'],
     castlingRightsToFEN castlingRights,
     enPassantToFEN enPassantTarget,
     ['0'], ['1']])

/-- The accumulator loop of JavaScript `string.split(sep)`. -/
def jsSplitAux (sep : Char) : List Char → List Char → List (List Char)
  | [], acc => [acc.reverse]
  | c :: rest, acc =>
    if c = sep then acc.reverse :: jsSplitAux sep rest []
    else jsSplitAux sep rest (c :: acc)

/-- JavaScript `string.split(sep)` on a single-character separator. -/
def jsSplit (sep : Char) (l : List Char) : List (List Char) :=
  jsSplitAux sep l []

/-- `charToPieceType(char)`: maps a lowercase letter, throwing otherwise. -/
def charToPieceTypeF (c : Char) : Except String PieceType :=
  if c = 'p' then .ok .pawn
  else if c = 'n' then .ok .knight
  else if c = 'b' then .ok .bishop
  else if c = 'r' then .ok .rook
  else if c = 'q' then .ok .queen
  else if c = 'k' then .ok .king
  else .error ("Invalid piece character in FEN: " ++ String.mk [c])

/-- `fenCharToPiece(char)`: uppercase means white. -/
def fenCharToPiece (c : Char) : Except String ChessPiece := do
  let color : PieceColor := if c.toUpper = c then .white else .black
  let pieceType ← charToPieceTypeF c.toLower
  return ⟨pieceType, color⟩

/-- The per-rank scanning loop of `parseBoardPosition`: digits expand to that
many empty squares, other characters decode as pieces. -/
def parseRankAux : List Char → Except String (List (Option ChessPiece))
  | [] => .ok []
  | c :: rest =>
    if c.isDigit then
      (parseRankAux rest).map fun r => List.replicate (c.toNat - 48) none ++ r
    else do
      let p ← fenCharToPiece c
      let r ← parseRankAux rest
      return (some p :: r)

/-- One rank of `parseBoardPosition`, with the `col !== 8` completeness
check. -/
def parseRankChecked (rank : List Char) : Except String (List (Option ChessPiece)) := do
  let row ← parseRankAux rank
  if row.length = 8 then return row
  else throw ("Invalid rank in FEN: " ++ String.mk rank ++ " (should have 8 squares)")

/-- The rank-by-rank loop of `parseBoardPosition`. -/
def parseRanks : List (List Char) → Except String Board
  | [] => .ok []
  | rank :: rest => do
    let row ← parseRankChecked rank
    let rows ← parseRanks rest
    return (row :: rows)

/-- `parseBoardPosition(boardPart)`. -/
def parseBoardPosition (boardPart : List Char) : Except String Board :=
  let ranks := jsSplit '/' boardPart
  if ranks.length ≠ 8 then
    .error ("Invalid board position in FEN: " ++ String.mk boardPart)
  else parseRanks ranks

/-- `parseCastlingRights(castlingPart)`: `'-'` yields the all-false record;
otherwise a **missing** letter marks both the king and that rook as having
moved. -/
def parseCastlingRightsF (castlingPart : List Char) : HasMoved :=
  if castlingPart = ['-'] then {}
  else
    { whiteKing := !castlingPart.contains 'K' || !castlingPart.contains 'Q'
      whiteRookRight := !castlingPart.contains 'K'
      whiteRookLeft := !castlingPart.contains 'Q'
      blackKing := !castlingPart.contains 'k' || !castlingPart.contains 'q'
      blackRookRight := !castlingPart.contains 'k'
      blackRookLeft := !castlingPart.contains 'q' }

/-- `parseEnPassantTarget(enPassantPart)` (a missing character reads as the
empty string, which fails the range comparison exactly as in JavaScript). -/
def parseEnPassantTargetF (enPassantPart : List Char) : Except String (Option Pos) :=
  if enPassantPart = ['-'] then .ok none
  else
    match enPassantPart with
    | f :: r :: _ =>
      if f < 'a' ∨ f > 'h' ∨ r < '1' ∨ r > '8' then
        .error ("Invalid en passant target in FEN: " ++ String.mk enPassantPart)
      else .ok (some ⟨8 - digitVal r, (f.toNat : Int) - 97⟩)
    | _ => .error ("Invalid en passant target in FEN: " ++ String.mk enPassantPart)

/-- `fenToBoard(fen)`: split on spaces, reject fewer than six fields, parse
the first four. -/
def fenToBoard (fen : String) : Except String FenParts := do
  let parts := jsSplit ' ' fen.data
  if parts.length < 6 then throw ("Invalid FEN string format: " ++ fen)
  let board ← parseBoardPosition (parts.getD 0 [])
  let currentPlayer : PieceColor := if parts.getD 1 [] = ['w'] then .white else .black
  let castlingRights := parseCastlingRightsF (parts.getD 2 [])
  let enPassantTarget ← parseEnPassantTargetF (parts.getD 3 [])
  return ⟨board, currentPlayer, castlingRights, enPassantTarget⟩

/-- Parsing the decimal digit of `1 ≤ e ≤ 8` prepends `e` empty squares. -/
theorem parseRankAux_digit_prefix (e : Nat) (h1 : 1 ≤ e) (h8 : e ≤ 8) (l : List Char) :
    parseRankAux ((toString e).data ++ l) =
      (parseRankAux l).map fun r => List.replicate e none ++ r := by
  interval_cases e <;> rfl

/-- Round trip of one rank's run-length encoding, generalized over the
running empty-square counter. -/
theorem parseRankAux_round (cells : List (Option ChessPiece)) (e : Nat)
    (he : e + cells.length ≤ 8) :
    parseRankAux (rankToFENAux cells e) = .ok (List.replicate e none ++ cells) := by
  induction cells generalizing e with
  | nil =>
    by_cases h0 : e > 0
    · have : rankToFENAux [] e = (toString e).data := by
        simp [rankToFENAux, h0]
      rw [this, show (toString e).data = (toString e).data ++ [] by simp,
        parseRankAux_digit_prefix e h0 (by simpa using he)]
      rfl
    · have he0 : e = 0 := by omega
      subst he0
      rfl
  | cons cell rest ih =>
    cases cell with
    | none =>
      have : rankToFENAux (none :: rest) e = rankToFENAux rest (e + 1) := rfl
      rw [this, ih (e + 1) (by simp at he ⊢; omega)]
      congr 1
      simp [List.replicate_succ', List.append_assoc]
    | some p =>
      have hstep : rankToFENAux (some p :: rest) e =
          (if e > 0 then (toString e).data else []) ++
            pieceToFENChar p :: rankToFENAux rest 0 := rfl
      have hpiece : parseRankAux (pieceToFENChar p :: rankToFENAux rest 0) =
          .ok (some p :: rest) := by
        have hnd : (pieceToFENChar p).isDigit = false := by
          rcases p with ⟨t, c⟩
          cases t <;> cases c <;> rfl
        have hfc : fenCharToPiece (pieceToFENChar p) = .ok p := by
          rcases p with ⟨t, c⟩
          cases t <;> cases c <;> rfl
        have hrest := ih 0 (by simp at he ⊢; omega)
        simp only [parseRankAux, hnd, Bool.false_eq_true, if_false, hfc, bind, Except.bind,
          hrest, List.replicate, List.nil_append, pure, Except.pure]
      by_cases h0 : e > 0
      · rw [hstep, if_pos h0,
          parseRankAux_digit_prefix e h0 (by simp at he ⊢; omega), hpiece]
        rfl
      · have he0 : e = 0 := by omega
        subst he0
        rw [hstep, if_neg h0, List.nil_append, hpiece]
        rfl

/-- Characters of a rank that parses successfully are digits or accepted
piece letters, hence neither `' '` nor `'/'`. -/
theorem parseRankAux_chars (l : List Char) (r : List (Option ChessPiece))
    (h : parseRankAux l = .ok r) : ∀ c ∈ l, c ≠ ' ' ∧ c ≠ '/' := by
  induction l generalizing r with
  | nil => intro c hc; cases hc
  | cons c0 rest ih =>
    intro c hc
    simp only [parseRankAux] at h
    by_cases hd : c0.isDigit
    · rw [if_pos hd] at h
      cases hrest : parseRankAux rest with
      | error e => rw [hrest] at h; cases h
      | ok r' =>
        cases hc with
        | head =>
          constructor <;> rintro rfl <;> simp at hd
        | tail _ hmem => exact ih r' hrest c hmem
    · rw [if_neg hd] at h
      cases hp : fenCharToPiece c0 with
      | error e => rw [hp] at h; cases h
      | ok p =>
        rw [hp] at h
        simp only [bind, Except.bind] at h
        cases hrest : parseRankAux rest with
        | error e => rw [hrest] at h; cases h
        | ok r' =>
          cases hc with
          | head =>
            constructor <;> rintro rfl <;> cases hp
          | tail _ hmem => exact ih r' hrest c hmem

/-- Membership in a `joinWith` is membership in a part or the separator. -/
theorem mem_joinWith (sep : Char) (parts : List (List Char)) (c : Char)
    (h : c ∈ joinWith sep parts) : c = sep ∨ ∃ p ∈ parts, c ∈ p := by
  induction parts with
  | nil => cases h
  | cons p rest ih =>
    cases rest with
    | nil =>
      right
      exact ⟨p, List.mem_singleton.mpr rfl, h⟩
    | cons q rest' =>
      have : joinWith sep (p :: q :: rest') = p ++ sep :: joinWith sep (q :: rest') := rfl
      rw [this] at h
      rcases List.mem_append.mp h with hp | hs
      · exact Or.inr ⟨p, List.mem_cons_self .., hp⟩
      · rcases List.mem_cons.mp hs with rfl | hrest
        · exact Or.inl rfl
        · rcases ih hrest with rfl | ⟨p', hp', hc'⟩
          · exact Or.inl rfl
          · exact Or.inr ⟨p', List.mem_cons_of_mem _ hp', hc'⟩

/-- The split loop consumes a separator-free prefix into the accumulator. -/
theorem jsSplitAux_no_sep (sep : Char) (part : List Char)
    (hpart : ∀ c ∈ part, c ≠ sep) (l acc : List Char) :
    jsSplitAux sep (part ++ l) acc = jsSplitAux sep l (part.reverse ++ acc) := by
  induction part generalizing acc with
  | nil => simp
  | cons c p' ih =>
    have hc : c ≠ sep := hpart c (List.mem_cons_self ..)
    have : jsSplitAux sep ((c :: p') ++ l) acc = jsSplitAux sep (p' ++ l) (c :: acc) := by
      simp [jsSplitAux, hc]
    rw [this, ih (fun x hx => hpart x (List.mem_cons_of_mem _ hx)) (c :: acc)]
    congr 1
    simp

/-- `jsSplit` inverts `joinWith` when no part contains the separator. -/
theorem jsSplit_joinWith (sep : Char) (parts : List (List Char)) (hne : parts ≠ [])
    (h : ∀ p ∈ parts, ∀ c ∈ p, c ≠ sep) :
    jsSplit sep (joinWith sep parts) = parts := by
  induction parts with
  | nil => exact absurd rfl hne
  | cons p rest ih =>
    cases rest with
    | nil =>
      show jsSplitAux sep (joinWith sep [p]) [] = [p]
      have : joinWith sep [p] = p ++ [] := by simp [joinWith]
      rw [this, jsSplitAux_no_sep sep p (h p (List.mem_cons_self ..)) [] []]
      simp [jsSplitAux]
    | cons q rest' =>
      show jsSplitAux sep (joinWith sep (p :: q :: rest')) [] = p :: q :: rest'
      have hjw : joinWith sep (p :: q :: rest') = p ++ sep :: joinWith sep (q :: rest') := rfl
      rw [hjw, jsSplitAux_no_sep sep p (h p (List.mem_cons_self ..)) _ []]
      have : jsSplitAux sep (sep :: joinWith sep (q :: rest')) (p.reverse ++ []) =
          (p.reverse ++ []).reverse :: jsSplitAux sep (joinWith sep (q :: rest')) [] := by
        simp [jsSplitAux]
      rw [this]
      have ihr := ih (by simp) (fun x hx => h x (List.mem_cons_of_mem _ hx))
      rw [show jsSplitAux sep (joinWith sep (q :: rest')) [] =
        jsSplit sep (joinWith sep (q :: rest')) from rfl, ihr]
      simp

/-- Round trip of the rank-by-rank board parse. -/
theorem parseRanks_round (rows : Board) (h : ∀ row ∈ rows, row.length = 8) :
    parseRanks (rows.map fun row => rankToFENAux row 0) = .ok rows := by
  induction rows with
  | nil => rfl
  | cons row rest ih =>
    have h8 : row.length = 8 := h row (List.mem_cons_self ..)
    have hrow : parseRankAux (rankToFENAux row 0) = .ok row := by
      simpa using parseRankAux_round row 0 (by omega)
    have hchecked : parseRankChecked (rankToFENAux row 0) = .ok row := by
      unfold parseRankChecked
      rw [hrow]
      simp [bind, Except.bind, h8, pure, Except.pure]
    have hrest := ih fun r hr => h r (List.mem_cons_of_mem _ hr)
    rw [List.map_cons]
    unfold parseRanks
    rw [hchecked]
    simp [bind, Except.bind, hrest, pure, Except.pure]

/-- Round trip of the full board field. -/
theorem parseBoardPosition_round (b : Board) (hwf : boardWf b) :
    parseBoardPosition (boardPositionToFEN b) = .ok b := by
  have hsplit : jsSplit '/' (boardPositionToFEN b) =
      b.map fun row => rankToFENAux row 0 := by
    apply jsSplit_joinWith
    · have : b ≠ [] := by
        intro hb
        rw [hb] at hwf
        exact absurd hwf.1 (by decide)
      simpa using this
    · intro p hp c hc
      obtain ⟨row, hrow, rfl⟩ := List.mem_map.mp hp
      have hparse := parseRankAux_round row 0 (by simp [hwf.2 row hrow])
      exact (parseRankAux_chars _ _ (by simpa using hparse) c hc).2
  unfold parseBoardPosition
  rw [hsplit]
  have hlen : (b.map fun row => rankToFENAux row 0).length = 8 := by
    simp [hwf.1]
  rw [if_neg (by omega)]
  exact parseRanks_round b hwf.2

/-- No character of the board field is a space. -/
theorem boardPositionToFEN_no_space (b : Board) (hwf : boardWf b) :
    ∀ c ∈ boardPositionToFEN b, c ≠ ' ' := by
  intro c hc
  rcases mem_joinWith '/' _ c hc with rfl | ⟨p, hp, hcp⟩
  · decide
  · obtain ⟨row, hrow, rfl⟩ := List.mem_map.mp hp
    have hparse := parseRankAux_round row 0 (by simp [hwf.2 row hrow])
    exact (parseRankAux_chars _ _ (by simpa using hparse) c hcp).1

/-- No character of the castling field is a space. -/
theorem castlingRightsToFEN_no_space (hm : HasMoved) :
    ∀ c ∈ castlingRightsToFEN hm, c ≠ ' ' := by
  intro c hc
  cases h1 : canWhiteKingside hm <;> cases h2 : canWhiteQueenside hm <;>
    cases h3 : canBlackKingside hm <;> cases h4 : canBlackQueenside hm <;>
    simp [castlingRightsToFEN, h1, h2, h3, h4] at hc <;>
    first
      | (subst hc; decide)
      | (rcases hc with rfl | rfl <;> decide)
      | (rcases hc with rfl | rfl | rfl <;> decide)
      | (rcases hc with rfl | rfl | rfl | rfl <;> decide)

/-- No character of the en-passant field is a space, for in-range targets. -/
theorem enPassantToFEN_no_space (ept : Option Pos)
    (hep : ∀ t, ept = some t → 0 ≤ t.row ∧ t.row < 8 ∧ 0 ≤ t.col ∧ t.col < 8) :
    ∀ c ∈ enPassantToFEN ept, c ≠ ' ' := by
  cases ept with
  | none => intro c hc; rcases List.mem_singleton.mp hc with rfl; decide
  | some t =>
    obtain ⟨r, c0⟩ := t
    obtain ⟨h1, h2, h3, h4⟩ := hep ⟨r, c0⟩ rfl
    simp only at h1 h2 h3 h4
    interval_cases r <;> interval_cases c0 <;> decide

/-- Round trip of the en-passant field, for in-range targets. -/
theorem parseEnPassant_round (ept : Option Pos)
    (hep : ∀ t, ept = some t → 0 ≤ t.row ∧ t.row < 8 ∧ 0 ≤ t.col ∧ t.col < 8) :
    parseEnPassantTargetF (enPassantToFEN ept) = .ok ept := by
  cases ept with
  | none => rfl
  | some t =>
    obtain ⟨r, c0⟩ := t
    obtain ⟨h1, h2, h3, h4⟩ := hep ⟨r, c0⟩ rfl
    simp only at h1 h2 h3 h4
    interval_cases r <;> interval_cases c0 <;> rfl

/-- Round trip of the four derived castling rights, when each color's two
rights agree and not every right is already gone. -/
theorem parseCastling_round (hm : HasMoved)
    (hw : canWhiteKingside hm = canWhiteQueenside hm)
    (hb : canBlackKingside hm = canBlackQueenside hm)
    (hnz : ¬ (canWhiteKingside hm = false ∧ canBlackKingside hm = false)) :
    canWhiteKingside (parseCastlingRightsF (castlingRightsToFEN hm)) = canWhiteKingside hm ∧
    canWhiteQueenside (parseCastlingRightsF (castlingRightsToFEN hm)) = canWhiteQueenside hm ∧
    canBlackKingside (parseCastlingRightsF (castlingRightsToFEN hm)) = canBlackKingside hm ∧
    canBlackQueenside (parseCastlingRightsF (castlingRightsToFEN hm)) = canBlackQueenside hm := by
  cases hwk : canWhiteKingside hm <;> cases hbk : canBlackKingside hm
  · exact absurd ⟨hwk, hbk⟩ hnz
  all_goals
    have hwq := hw.symm.trans hwk
    have hbq := hb.symm.trans hbk
    simp only [castlingRightsToFEN, hwk, hwq, hbk, hbq]
    decide

/-- C4 amended: encoding and decoding through the FEN codec reproduces the
board, the side to move and the en-passant target exactly for every 8×8
board and in-range target; the four derived castling rights are reproduced
provided each color's two rights agree and at least one right is still
present (the counterexample shows mixed rights collapse, and an all-cleared
record decodes from `'-'` as all rights re-granted). -/
theorem c4_fen_roundtrip_amended (b : Board) (p : PieceColor) (hm : HasMoved)
    (ept : Option Pos) (hwf : boardWf b)
    (hw : canWhiteKingside hm = canWhiteQueenside hm)
    (hb : canBlackKingside hm = canBlackQueenside hm)
    (hnz : ¬ (canWhiteKingside hm = false ∧ canBlackKingside hm = false))
    (hep : ∀ t, ept = some t → 0 ≤ t.row ∧ t.row < 8 ∧ 0 ≤ t.col ∧ t.col < 8) :
    ∃ out, fenToBoard (boardToFEN b p hm ept) = .ok out ∧
      out.board = b ∧ out.currentPlayer = p ∧ out.enPassantTarget = ept ∧
      canWhiteKingside out.castlingRights = canWhiteKingside hm ∧
      canWhiteQueenside out.castlingRights = canWhiteQueenside hm ∧
      canBlackKingside out.castlingRights = canBlackKingside hm ∧
      canBlackQueenside out.castlingRights = canBlackQueenside hm := by
  have hsplit : jsSplit ' ' (boardToFEN b p hm ept).data =
      [boardPositionToFEN b, [if p = .white then 'w' else 'b'], castlingRightsToFEN hm,
        enPassantToFEN ept, ['0'], ['1']] := by
    apply jsSplit_joinWith
    · simp
    · intro fld hfld c hc
      simp only [List.mem_cons, List.not_mem_nil, or_false] at hfld
      rcases hfld with rfl | rfl | rfl | rfl | rfl | rfl
      · exact boardPositionToFEN_no_space b hwf c hc
      · cases p <;> simp at hc <;> subst hc <;> decide
      · exact castlingRightsToFEN_no_space hm c hc
      · exact enPassantToFEN_no_space ept hep c hc
      · rcases List.mem_singleton.mp hc with rfl; decide
      · rcases List.mem_singleton.mp hc with rfl; decide
  obtain ⟨e1, e2, e3, e4⟩ := parseCastling_round hm hw hb hnz
  refine ⟨⟨b, p, parseCastlingRightsF (castlingRightsToFEN hm), ept⟩, ?_, rfl, rfl, rfl,
    e1, e2, e3, e4⟩
  unfold fenToBoard
  rw [hsplit]
  have hb' := parseBoardPosition_round b hwf
  have he' := parseEnPassant_round ept hep
  simp only [List.getD, List.get?, Option.getD_some, List.length_cons, List.length_nil,
    show ¬ (6 < 6) from by omega, if_false, hb', he', bind, Except.bind, pure, Except.pure]
  cases p <;> simp

/-- C4 amended witness: the initial position (all rights present, no target)
round-trips exactly. -/
theorem c4_fen_roundtrip_amended_witness :
    ∃ out, fenToBoard (boardToFEN initializeBoard .white {} none) = .ok out ∧
      out.board = initializeBoard ∧ out.currentPlayer = .white ∧
      out.enPassantTarget = none ∧
      canWhiteKingside out.castlingRights = canWhiteKingside {} ∧
      canWhiteQueenside out.castlingRights = canWhiteQueenside {} ∧
      canBlackKingside out.castlingRights = canBlackKingside {} ∧
      canBlackQueenside out.castlingRights = canBlackQueenside {} :=
  c4_fen_roundtrip_amended initializeBoard .white {} none (by decide) (by decide)
    (by decide) (by decide) (by intro t ht; cases ht)

/-- The width a rank description claims: digits add that many squares, valid
piece letters (those `fenCharToPiece` accepts) add one, an invalid letter
makes the width undefined. -/
def rankWidth : List Char → Option Nat
  | [] => some 0
  | c :: rest =>
    if c.isDigit then (rankWidth rest).map (· + (c.toNat - 48))
    else
      match fenCharToPiece c with
      | .ok _ => (rankWidth rest).map (· + 1)
      | .error _ => none

/-- A successful rank parse means the rank's claimed width equals the number
of squares produced. -/
theorem rankWidth_of_parseRankAux (l : List Char) (r : List (Option ChessPiece))
    (h : parseRankAux l = .ok r) : rankWidth l = some r.length := by
  induction l generalizing r with
  | nil =>
    simp only [parseRankAux] at h
    cases h
    rfl
  | cons c rest ih =>
    simp only [parseRankAux] at h
    by_cases hd : c.isDigit
    · rw [if_pos hd] at h
      cases hrest : parseRankAux rest with
      | error e => rw [hrest] at h; cases h
      | ok r' =>
        rw [hrest] at h
        cases h
        simp only [rankWidth, if_pos hd, ih r' hrest, Option.map_some]
        simp [List.length_append, Nat.add_comm]
    · rw [if_neg hd] at h
      cases hp : fenCharToPiece c with
      | error e => rw [hp] at h; cases h
      | ok p =>
        rw [hp] at h
        simp only [bind, Except.bind] at h
        cases hrest : parseRankAux rest with
        | error e => rw [hrest] at h; cases h
        | ok r' =>
          rw [hrest] at h
          cases h
          simp only [rankWidth, if_neg hd, hp, ih r' hrest, Option.map_some]
          rfl

/-- A successful `parseRanks` means each rank parsed with exactly 8
squares. -/
theorem parseRanks_ok (ranks : List (List Char)) (b : Board)
    (h : parseRanks ranks = .ok b) :
    ∀ rank ∈ ranks, ∃ row : List (Option ChessPiece),
      parseRankAux rank = .ok row ∧ row.length = 8 := by
  induction ranks generalizing b with
  | nil => intro rank hr; cases hr
  | cons rank0 rest ih =>
    intro rank hr
    simp only [parseRanks] at h
    cases hc : parseRankChecked rank0 with
    | error e => rw [hc] at h; cases h
    | ok row =>
      rw [hc] at h
      simp only [bind, Except.bind] at h
      cases hrs : parseRanks rest with
      | error e => rw [hrs] at h; cases h
      | ok rows =>
        have hrow : parseRankAux rank0 = .ok row ∧ row.length = 8 := by
          simp only [parseRankChecked] at hc
          cases ha : parseRankAux rank0 with
          | error e => rw [ha] at hc; cases hc
          | ok row' =>
            rw [ha] at hc
            simp only [bind, Except.bind] at hc
            by_cases hlen : row'.length = 8
            · rw [if_pos hlen] at hc
              cases hc
              exact ⟨rfl, hlen⟩
            · rw [if_neg hlen] at hc; cases hc
        cases hr with
        | head => exact ⟨row, hrow⟩
        | tail _ hmem => exact ih rows hrs rank hmem

/-! ### States used by the concrete claim scenarios -/

/-- An empty 8×8 board. -/
def emptyBoard : Board := List.replicate 8 (List.replicate 8 none)

/-- Place a list of pieces (row, col, piece) on the empty board. -/
def placeAll (l : List (Int × Int × ChessPiece)) : Board :=
  l.foldl (fun b x => setSq b x.1 x.2.1 (some x.2.2)) emptyBoard

/-- C1 scenario: the position after e2e4, a7a6, e4e5, d7d5 from the initial
position. -/
def c1AfterFour : ChessState :=
  applyMove (applyMove (applyMove (applyMove initialChessState
    ⟨6, 4⟩ ⟨4, 4⟩ .queen) ⟨1, 0⟩ ⟨2, 0⟩ .queen) ⟨4, 4⟩ ⟨3, 4⟩ .queen) ⟨1, 3⟩ ⟨3, 3⟩ .queen

/-- C1 scenario: the state after white then plays e5d6 (the en-passant
capture). -/
def c1AfterCapture : ChessState := applyMove c1AfterFour ⟨3, 4⟩ ⟨2, 3⟩ .queen

/-- C3 scenario: white rook a3, black rook a2, black king h8 boxed in by its
own pawns g7/h7, white king e1; white to move. -/
def c3State : ChessState :=
  { initialChessState with
    board := placeAll [(5, 0, ⟨.rook, .white⟩), (6, 0, ⟨.rook, .black⟩),
      (0, 7, ⟨.king, .black⟩), (1, 6, ⟨.pawn, .black⟩), (1, 7, ⟨.pawn, .black⟩),
      (7, 4, ⟨.king, .white⟩)] }

/-- C3 scenario: the state after white plays the rook from a3 to a8. -/
def c3After : ChessState := applyMove c3State ⟨5, 0⟩ ⟨0, 0⟩ .queen

/-- C5 scenario: black rook still on its home square h8, white queen on h4
able to capture it; white to move, no `hasMoved` flag set. -/
def c5State : ChessState :=
  { initialChessState with
    board := placeAll [(0, 7, ⟨.rook, .black⟩), (0, 4, ⟨.king, .black⟩),
      (4, 7, ⟨.queen, .white⟩), (7, 4, ⟨.king, .white⟩)] }

/-- C5 scenario: the state after white's queen captures the h8 rook. -/
def c5After : ChessState := applyMove c5State ⟨4, 7⟩ ⟨0, 7⟩ .queen

/-- C6 scenario: black pawn c7 and white pawn g7 about to promote; black to
move. -/
def c6State : ChessState :=
  { initialChessState with
    board := placeAll [(1, 2, ⟨.pawn, .black⟩), (1, 6, ⟨.pawn, .white⟩),
      (3, 0, ⟨.king, .black⟩), (7, 4, ⟨.king, .white⟩)]
    currentPlayer := .black }

/-- C6 scenario: after black's double push c7c5 (the en-passant target is
set), with white's g7 pawn selected for its move. -/
def c6AfterPush : ChessState :=
  { applyMove c6State ⟨1, 2⟩ ⟨3, 2⟩ .queen with selectedPiece := some ⟨1, 6⟩ }

/-- C6 scenario: after white promotes g7g8 to a queen. -/
def c6AfterPromo : ChessState := applyMove c6AfterPush ⟨1, 6⟩ ⟨0, 6⟩ .queen

/-- C7 scenario: six knight moves (Nf3 Nf6 Ng1 Ng8 Nf3 Nf6) from the initial
position; each position signature occurs at most twice. -/
def c7After : ChessState :=
  applyMove (applyMove (applyMove (applyMove (applyMove (applyMove initialChessState
    ⟨7, 6⟩ ⟨5, 5⟩ .queen) ⟨0, 6⟩ ⟨2, 5⟩ .queen) ⟨5, 5⟩ ⟨7, 6⟩ .queen) ⟨2, 5⟩ ⟨0, 6⟩ .queen)
    ⟨7, 6⟩ ⟨5, 5⟩ .queen) ⟨0, 6⟩ ⟨2, 5⟩ .queen

/-- The full signature history of the C7 scenario: the initial position's
signature followed by the signature appended after each applied move. -/
def c7SigHistory : List String :=
  generateBoardPosition initialChessState.board .white {} :: c7After.boardPositions

/-- C4 scenario: the reachable state after 1. Nf3 a6 2. Rg1 — white's
kingside rook has moved (so `white-rook-right` is flagged) while the
queenside right is still intact. -/
def c4State : ChessState :=
  applyMove (applyMove (applyMove initialChessState
    ⟨7, 6⟩ ⟨5, 5⟩ .queen) ⟨1, 0⟩ ⟨2, 0⟩ .queen) ⟨7, 7⟩ ⟨7, 6⟩ .queen

/-- The decoded castling record of a FEN decode, when it succeeded. -/
def fenRights : Except String FenParts → Option HasMoved
  | .ok o => some o.castlingRights
  | .error _ => none

/-! ### Claim theorems (first batch) -/

/-- C1: from the initial position after e2e4 a7a6 e4e5 d7d5, the stored
en-passant target is d6 = (2,3) and d6 is among the white e5-pawn's legal
destinations — but applying e5d6 does **not** remove black's pawn from
d5 = (3,3): the move is applied as a plain pawn move (the reducer stores the
passed-over square while `handleMove` tests `to.row === target.row - 1`, so
the en-passant branch never fires).  The claim's removal conjunct is false on
the code. -/
theorem c1_en_passant_capture_leaves_pawn :
    c1AfterFour.enPassantTarget = some ⟨2, 3⟩ ∧
    (⟨2, 3⟩ : Pos) ∈ legalMoves c1AfterFour ⟨3, 4⟩ ∧
    getSq c1AfterFour.board 3 3 = some ⟨.pawn, .black⟩ ∧
    c1AfterCapture.currentPlayer = .black ∧
    getSq c1AfterCapture.board 2 3 = some ⟨.pawn, .white⟩ ∧
    getSq c1AfterCapture.board 3 3 = some ⟨.pawn, .black⟩ := by
  decide

/-- C3: in `c3State`, white's rook move a3a8 is legal and the code then
declares "Checkmate! white wins!" — although black, the side now to move, is
in check but still has a legal move (rook a2 captures a8): `isInCheckmate`
searches escapes only through the stub `basicGetValidMoves`, which generates
nothing for rooks.  The claimed if-and-only-if is false on the code. -/
theorem c3_checkmate_declared_despite_legal_move :
    (⟨0, 0⟩ : Pos) ∈ legalMoves c3State ⟨5, 0⟩ ∧
    c3After.gameState = ⟨true, some .white, "Checkmate! white wins!"⟩ ∧
    c3After.currentPlayer = .black ∧
    isInCheck .black c3After.board = true ∧
    (⟨0, 0⟩ : Pos) ∈ legalMoves c3After ⟨6, 0⟩ := by
  decide

/-- C4 counterexample: in the reachable position after 1. Nf3 a6 2. Rg1,
white's queenside castling right is still held (`canWhiteQueenside = true`,
and the encoded FEN castling field indeed carries `'Q'`), but decoding the
encoded FEN yields a position with the white queenside right cleared:
`parseCastlingRights` marks the king as moved whenever the kingside letter is
absent, killing the queenside right too.  The round-trip law fails on a
reachable position. -/
theorem c4_fen_roundtrip_counterexample :
    c4State.hasMoved.whiteRookRight = true ∧
    canWhiteQueenside c4State.hasMoved = true ∧
    canWhiteKingside c4State.hasMoved = false ∧
    (boardToFEN c4State.board c4State.currentPlayer c4State.hasMoved
      c4State.enPassantTarget).data.contains 'Q' = true ∧
    (fenRights (fenToBoard (boardToFEN c4State.board c4State.currentPlayer
      c4State.hasMoved c4State.enPassantTarget))).map canWhiteQueenside = some false := by
  decide

/-- C8 counterexample: a seven-field input — one field more than the FEN
grammar allows — is accepted by `fenToBoard` rather than rejected: only
fewer-than-six field counts are caught. -/
theorem c8_seven_fields_accepted :
    (jsSplit ' ' ("8/8/8/8/8/8/8/8 w - - 0 1 extra" : String).data).length = 7 ∧
    (fenToBoard "8/8/8/8/8/8/8/8 w - - 0 1 extra").isOk = true := by
  decide

/-- C8 amended: whenever `fenToBoard` succeeds, the input had at least six
space-separated fields (extra fields beyond the sixth are ignored, as the
counterexample shows), its board field split into exactly eight ranks, and
every rank's width — digits contributing their value, letters accepted by
the piece decoder contributing one, invalid letters poisoning the width —
is exactly 8.  Contrapositively, inputs with fewer than six fields, a rank
not summing to 8 squares, or an invalid piece letter are rejected with a
decode error. -/
theorem c8_decode_soundness_amended (s : String)
    (h : (fenToBoard s).isOk = true) :
    6 ≤ (jsSplit ' ' s.data).length ∧
    (jsSplit '/' ((jsSplit ' ' s.data).getD 0 [])).length = 8 ∧
    ∀ rank ∈ jsSplit '/' ((jsSplit ' ' s.data).getD 0 []), rankWidth rank = some 8 := by
  unfold fenToBoard at h
  by_cases hlen : (jsSplit ' ' s.data).length < 6
  · rw [if_pos hlen] at h
    simp [throw, throwThe, MonadExceptOf.throw, bind, Except.bind, pure, Except.pure] at h
    exact Bool.noConfusion h
  · refine ⟨Nat.le_of_not_lt hlen, ?_⟩
    rw [if_neg hlen] at h
    cases hb : parseBoardPosition ((jsSplit ' ' s.data).getD 0 []) with
    | error e =>
      rw [hb] at h
      simp [bind, Except.bind, pure, Except.pure, throw, throwThe, MonadExceptOf.throw] at h
      exact Bool.noConfusion h
    | ok b =>
      unfold parseBoardPosition at hb
      by_cases hr : (jsSplit '/' ((jsSplit ' ' s.data).getD 0 [])).length ≠ 8
      · rw [if_pos hr] at hb; cases hb
      · rw [if_neg hr] at hb
        refine ⟨by omega, ?_⟩
        intro rank hmem
        obtain ⟨row, hrow, hlen8⟩ := parseRanks_ok _ b hb rank hmem
        rw [rankWidth_of_parseRankAux rank row hrow, hlen8]

/-- C8 amended witness: the standard initial-position FEN decodes, has six
fields, eight ranks, and all rank widths 8. -/
theorem c8_decode_soundness_amended_witness :
    6 ≤ (jsSplit ' ' ("rnbqkbnr/pppppppp/8/8/8/8/PPPPPPPP/RNBQKBNR w KQkq - 0 1" :
      String).data).length ∧
    (jsSplit '/' ((jsSplit ' '
      ("rnbqkbnr/pppppppp/8/8/8/8/PPPPPPPP/RNBQKBNR w KQkq - 0 1" : String).data).getD 0
        [])).length = 8 ∧
    ∀ rank ∈ jsSplit '/' ((jsSplit ' '
      ("rnbqkbnr/pppppppp/8/8/8/8/PPPPPPPP/RNBQKBNR w KQkq - 0 1" : String).data).getD 0 []),
      rankWidth rank = some 8 :=
  c8_decode_soundness_amended "rnbqkbnr/pppppppp/8/8/8/8/PPPPPPPP/RNBQKBNR w KQkq - 0 1"
    (by decide)

/-- C5 counterexample: black's rook stands untouched on its home square h8
with both black castling flags clear; white's legal queen capture h4h8
removes it, yet afterwards `hasMoved` still records the black kingside right
as available (`black-king` and `black-rook-right` both false) — the right is
not cleared when the rook is captured on its home square, contradicting the
claim. -/
theorem c5_rook_capture_counterexample :
    getSq c5State.board 0 7 = some ⟨.rook, .black⟩ ∧
    c5State.hasMoved.blackKing = false ∧ c5State.hasMoved.blackRookRight = false ∧
    (⟨0, 7⟩ : Pos) ∈ legalMoves c5State ⟨4, 7⟩ ∧
    getSq c5After.board 0 7 = some ⟨.queen, .white⟩ ∧
    c5After.hasMoved.blackKing = false ∧
    c5After.hasMoved.blackRookRight = false := by
  decide

/-- Pointwise implication on the six `hasMoved` flags: flags are only ever
added, never removed. -/
def HasMoved.le (a b : HasMoved) : Prop :=
  (a.whiteKing = true → b.whiteKing = true) ∧
  (a.whiteRookLeft = true → b.whiteRookLeft = true) ∧
  (a.whiteRookRight = true → b.whiteRookRight = true) ∧
  (a.blackKing = true → b.blackKing = true) ∧
  (a.blackRookLeft = true → b.blackRookLeft = true) ∧
  (a.blackRookRight = true → b.blackRookRight = true)

instance (a b : HasMoved) : Decidable (HasMoved.le a b) := by
  unfold HasMoved.le
  infer_instance

/-- `HasMoved.le` is reflexive. -/
theorem hmle_refl (a : HasMoved) : HasMoved.le a a :=
  ⟨fun h => h, fun h => h, fun h => h, fun h => h, fun h => h, fun h => h⟩

/-- `HasMoved.le` is transitive. -/
theorem hmle_trans {a b c : HasMoved} (h1 : HasMoved.le a b) (h2 : HasMoved.le b c) :
    HasMoved.le a c :=
  ⟨fun h => h2.1 (h1.1 h), fun h => h2.2.1 (h1.2.1 h), fun h => h2.2.2.1 (h1.2.2.1 h),
   fun h => h2.2.2.2.1 (h1.2.2.2.1 h), fun h => h2.2.2.2.2.1 (h1.2.2.2.2.1 h),
   fun h => h2.2.2.2.2.2 (h1.2.2.2.2.2 h)⟩

/-- Setting the king flag only adds a flag. -/
theorem hmle_setKing (a : HasMoved) (c : PieceColor) : HasMoved.le a (a.setKing c) := by
  cases c
  · exact ⟨fun _ => rfl, fun h => h, fun h => h, fun h => h, fun h => h, fun h => h⟩
  · exact ⟨fun h => h, fun h => h, fun h => h, fun _ => rfl, fun h => h, fun h => h⟩

/-- Setting the queenside-rook flag only adds a flag. -/
theorem hmle_setRookLeft (a : HasMoved) (c : PieceColor) : HasMoved.le a (a.setRookLeft c) := by
  cases c
  · exact ⟨fun h => h, fun _ => rfl, fun h => h, fun h => h, fun h => h, fun h => h⟩
  · exact ⟨fun h => h, fun h => h, fun h => h, fun h => h, fun _ => rfl, fun h => h⟩

/-- Setting the kingside-rook flag only adds a flag. -/
theorem hmle_setRookRight (a : HasMoved) (c : PieceColor) : HasMoved.le a (a.setRookRight c) := by
  cases c
  · exact ⟨fun h => h, fun h => h, fun _ => rfl, fun h => h, fun h => h, fun h => h⟩
  · exact ⟨fun h => h, fun h => h, fun h => h, fun h => h, fun h => h, fun _ => rfl⟩

/-- Reading back the king flag just set. -/
theorem kingOf_setKing (a : HasMoved) (c : PieceColor) : (a.setKing c).kingOf c = true := by
  cases c <;> rfl

/-- Reading back the queenside-rook flag just set. -/
theorem rookLeftOf_setRookLeft (a : HasMoved) (c : PieceColor) :
    (a.setRookLeft c).rookLeftOf c = true := by
  cases c <;> rfl

/-- Reading back the kingside-rook flag just set. -/
theorem rookRightOf_setRookRight (a : HasMoved) (c : PieceColor) :
    (a.setRookRight c).rookRightOf c = true := by
  cases c <;> rfl

/-- C5 amended: within a game (every action except `NEW_GAME`), the reducer
never clears a `hasMoved` flag, so a castling right, once cleared, is never
re-granted; `MOVE_PIECE` sets the king flag when a king moves and the
queenside/kingside rook flag when a rook moves from column 0 / any other
column; and a `MOVE_PIECE` whose mover is neither king nor rook — in
particular a capture of a rook on its home square — leaves every flag
unchanged. -/
theorem c5_rights_monotone_amended (s : ChessState) (a : ChessAction)
    (ha : a ≠ ChessAction.newGame) :
    HasMoved.le s.hasMoved (chessReducer s a).hasMoved ∧
    (∀ fm toP nota pm cap piece,
      a = ChessAction.movePiece fm toP nota pm cap →
      getSq s.board fm.row fm.col = some piece →
      (piece.type = PieceType.king →
        (chessReducer s a).hasMoved.kingOf piece.color = true) ∧
      (piece.type = PieceType.rook → fm.col = 0 →
        (chessReducer s a).hasMoved.rookLeftOf piece.color = true) ∧
      (piece.type = PieceType.rook → fm.col ≠ 0 →
        (chessReducer s a).hasMoved.rookRightOf piece.color = true) ∧
      (piece.type ≠ PieceType.king → piece.type ≠ PieceType.rook →
        (chessReducer s a).hasMoved = s.hasMoved)) := by
  constructor
  · cases a with
    | movePiece fm toP nota pm cap =>
      simp only [chessReducer]
      cases hget : getSq s.board fm.row fm.col with
      | none => exact hmle_refl _
      | some piece =>
        dsimp only
        split_ifs <;>
          first
            | exact hmle_refl _
            | exact hmle_setKing _ _
            | exact hmle_setRookLeft _ _
            | exact hmle_setRookRight _ _
    | handleCastling kf kt rf rt kc nota =>
      simp only [chessReducer]
      cases getSq s.board kf.row kf.col <;> cases getSq s.board rf.row rf.col <;> dsimp only <;>
        first
          | exact hmle_refl _
          | (split_ifs <;>
              first
                | exact hmle_trans (hmle_setKing _ _) (hmle_setRookRight _ _)
                | exact hmle_trans (hmle_setKing _ _) (hmle_setRookLeft _ _))
    | newGame => exact absurd rfl ha
    | handleEnPassant fm toP cpp nota =>
      simp only [chessReducer]
      cases getSq s.board fm.row fm.col <;> exact hmle_refl _
    | promotePawn pt =>
      simp only [chessReducer]
      cases s.promotionPawn with
      | none => exact hmle_refl _
      | some pp => exact hmle_refl _
    | selectPiece p pc vm =>
      simp only [chessReducer]
      split <;> exact hmle_refl _
    | _ => exact hmle_refl _
  · intro fm toP nota pm cap piece haeq hget
    subst haeq
    simp only [chessReducer, hget]
    refine ⟨?_, ?_, ?_, ?_⟩
    · intro hk
      rw [if_pos hk]
      exact kingOf_setKing _ _
    · intro hr h0
      rw [if_neg (by rw [hr]; decide), if_pos hr, if_pos h0]
      exact rookLeftOf_setRookLeft _ _
    · intro hr h0
      rw [if_neg (by rw [hr]; decide), if_pos hr, if_neg h0]
      exact rookRightOf_setRookRight _ _
    · intro hnk hnr
      rw [if_neg hnk, if_neg hnr]

/-- C5 amended witness: from the initial state, a rook move from h1 sets the
white kingside flag and the pre-move flags survive. -/
theorem c5_rights_monotone_amended_witness :
    HasMoved.le initialChessState.hasMoved
      (chessReducer initialChessState
        (ChessAction.movePiece ⟨7, 7⟩ ⟨5, 7⟩ "Rh3" false false)).hasMoved ∧
    (chessReducer initialChessState
      (ChessAction.movePiece ⟨7, 7⟩ ⟨5, 7⟩ "Rh3" false false)).hasMoved.rookRightOf
        PieceColor.white = true := by
  have h := c5_rights_monotone_amended initialChessState
    (ChessAction.movePiece ⟨7, 7⟩ ⟨5, 7⟩ "Rh3" false false) (by decide)
  refine ⟨h.1, ?_⟩
  exact (h.2 ⟨7, 7⟩ ⟨5, 7⟩ "Rh3" false false ⟨.rook, .white⟩ rfl (by decide)).2.2.1 rfl
    (by decide)

/-- C6: after black's double push c7c5 the en-passant target is correctly set
to the passed-over square c6 = (2,2); white then plays the legal promotion
move g7g8 (queen), the move is applied (the promoted queen stands on g8 and
the turn passes to black) — but the en-passant target is **still** set:
`PROMOTE_PAWN` never clears `enPassantTarget`, contradicting the claim that
every other applied move clears it. -/
theorem c6_promotion_keeps_en_passant_target :
    c6AfterPush.enPassantTarget = some ⟨2, 2⟩ ∧
    (⟨0, 6⟩ : Pos) ∈ legalMoves c6AfterPush ⟨1, 6⟩ ∧
    getSq c6AfterPromo.board 0 6 = some ⟨.queen, .white⟩ ∧
    getSq c6AfterPromo.board 1 6 = none ∧
    c6AfterPromo.currentPlayer = .black ∧
    c6AfterPromo.enPassantTarget = some ⟨2, 2⟩ := by
  decide

/-- C7: after the six knight moves Nf3 Nf6 Ng1 Ng8 Nf3 Nf6 the code sets the
status to "Draw by threefold repetition!", although every position signature
in the whole game history (initial signature included) has occurred at most
twice: the stale-state threefold test double-counts the pre-move position, so
the draw fires one move after the **second** occurrence, not after the third.
-/
theorem c7_repetition_draw_after_second_occurrence :
    c7After.gameState = ⟨true, none, "Draw by threefold repetition!"⟩ ∧
    (c7SigHistory.all fun sig =>
      decide ((c7SigHistory.countP fun p => p = sig) ≤ 2)) = true := by
  decide

/-- C9: a requested move that is not in the legal-move set of the current
position (the code's `getValidMoves` filtered through `wouldBeInCheck`) is
rejected by `handleMove` with no dispatch at all, so the entire game state —
board, side to move, castling flags, en-passant target, counters and
history — is returned unchanged. -/
theorem c9_illegal_move_leaves_state_unchanged (s : ChessState) (fm toP : Pos)
    (promo : PieceType) (hpp : s.promotionPawn = none)
    (h : toP ∉ legalMoves s fm) : applyMove s fm toP promo = s := by
  have hm : handleMove s fm toP = s := by
    unfold handleMove
    cases hget : getSq s.board fm.row fm.col with
    | none => rfl
    | some piece =>
      have hguard : ¬ (toP ∈ getValidMoves s.hasMoved s.enPassantTarget piece fm s.board) ∨
          wouldBeInCheck s.enPassantTarget fm toP s.currentPlayer s.board = true := by
        by_contra hc
        push_neg at hc
        exact h (by
          unfold legalMoves
          rw [hget]
          exact List.mem_filter.mpr ⟨hc.1, by simp [hc.2]⟩)
      exact if_pos hguard
  simp only [applyMove, hm, hpp]

/-- C9 witness: the request e2–a8 from the initial position is not legal and
leaves the state unchanged. -/
theorem c9_witness : applyMove initialChessState ⟨6, 4⟩ ⟨0, 0⟩ .queen = initialChessState :=
  c9_illegal_move_leaves_state_unchanged initialChessState ⟨6, 4⟩ ⟨0, 0⟩ .queen
    (by decide) (by decide)

/-- C10: on the malformed token "zz99", `uciToMove` from `types/chess.ts`
returns a `Move` whose coordinates are `-1` (outside [0,7]) without failing,
while the validated duplicate in `ai/move-parser.ts` throws. -/
theorem c10_uci_divergence :
    (uciToMoveTS "zz99").fm.row = -1 ∧ (uciToMoveTS "zz99").fm.col = -1 ∧
    ¬ (0 ≤ (uciToMoveTS "zz99").fm.row ∧ (uciToMoveTS "zz99").fm.row < 8) ∧
    uciToMoveMP "zz99" = .error "Invalid UCI move string: zz99" :=
  ⟨by decide, by decide, by decide, rfl⟩

/-! ### C2: the legality filter really protects the king -/

/-- `color` has at most one king on the board (true in every reachable
position; the scenario states all satisfy it). -/
abbrev atMostOneKing (c : PieceColor) (b : Board) : Prop :=
  ∀ p ∈ allSquares, ∀ q ∈ allSquares,
    getSq b p.row p.col = some ⟨.king, c⟩ → getSq b q.row q.col = some ⟨.king, c⟩ → q = p

/-- The legality guard of `handleMove` passes for a member of the filtered
move list. -/
theorem handleMove_guard (s : ChessState) (fm toP : Pos) (piece : ChessPiece)
    (hvm : toP ∈ getValidMoves s.hasMoved s.enPassantTarget piece fm s.board)
    (hwbf : wouldBeInCheck s.enPassantTarget fm toP s.currentPlayer s.board = false) :
    ¬(¬(toP ∈ getValidMoves s.hasMoved s.enPassantTarget piece fm s.board) ∨
      wouldBeInCheck s.enPassantTarget fm toP s.currentPlayer s.board = true) := by
  rintro (h1 | h2)
  · exact h1 hvm
  · rw [hwbf] at h2
    exact Bool.noConfusion h2

/-- Unpacking `wouldBeInCheck = false`: no castling out of check; a king
mover leaves its destination unattacked on the simulated board; any other
mover leaves the simulated board out of check. -/
theorem wbic_false_parts (ept : Option Pos) (fm toP : Pos) (color : PieceColor) (b : Board)
    (piece : ChessPiece) (hget : getSq b fm.row fm.col = some piece)
    (h : wouldBeInCheck ept fm toP color b = false) :
    (piece.type = .king ∧ (toP.col - fm.col).natAbs = 2 → isInCheck color b = false) ∧
    (piece.type = .king → checkSquareUnderAttack toP color
      (wbicTestBoard ept fm toP b piece) = false) ∧
    (¬ piece.type = .king → isInCheck color (wbicTestBoard ept fm toP b piece) = false) := by
  unfold wouldBeInCheck at h
  rw [hget] at h
  dsimp only at h
  have hnoshort : ∀ _ : piece.type = .king ∧ (toP.col - fm.col).natAbs = 2 ∧
      isInCheck color b = true, False := by
    intro hcond
    rw [if_pos hcond] at h
    exact Bool.noConfusion h
  have h' : (match (if piece.type = .king then some toP else
      findKing color (wbicTestBoard ept fm toP b piece)) with
    | none => false
    | some kp => checkSquareUnderAttack kp color (wbicTestBoard ept fm toP b piece)) = false := by
    by_cases hcond : piece.type = .king ∧ (toP.col - fm.col).natAbs = 2 ∧
        isInCheck color b = true
    · exact absurd hcond hnoshort
    · rw [if_neg hcond] at h
      exact h
  refine ⟨?_, ?_, ?_⟩
  · rintro ⟨hk, h2⟩
    by_cases hchk : isInCheck color b = true
    · exact absurd ⟨hk, h2, hchk⟩ hnoshort
    · simpa using hchk
  · intro hk
    rw [if_pos hk] at h'
    exact h'
  · intro hk
    rw [if_neg hk] at h'
    unfold isInCheck
    cases hL : findKing color (wbicTestBoard ept fm toP b piece) with
    | none => rfl
    | some k =>
      rw [hL] at h'
      exact h'

/-- `isInCheck` agrees on boards differing only at one square held by the
same color, provided neither board has that color's king there. -/
theorem isInCheck_congr (b b' : Board) (q : Pos) (col : PieceColor) (hag : AgreeX b b' q col)
    (hbq : getSq b q.row q.col ≠ some ⟨.king, col⟩)
    (hbq' : getSq b' q.row q.col ≠ some ⟨.king, col⟩) :
    isInCheck col b = isInCheck col b' := by
  unfold isInCheck
  rw [findKing_congr b b' q col hag.1 hbq hbq']
  cases hF : findKing col b' with
  | none => rfl
  | some k =>
    dsimp only
    exact checkSquareUnderAttack_congr b b' q col hag k

/-- `wouldBeInCheck`'s simulated board, plain-move branch. -/
theorem wbicTestBoard_normal_eq (ept : Option Pos) (fm toP : Pos) (b : Board)
    (mp : ChessPiece)
    (hnc : ¬(mp.type = .king ∧ (toP.col - fm.col).natAbs = 2))
    (hnep : epCond ept mp toP = false) :
    wbicTestBoard ept fm toP b mp =
      setSq (setSq b toP.row toP.col (some mp)) fm.row fm.col none := by
  unfold wbicTestBoard
  rw [if_neg hnc, if_neg (fun hq => by rw [hnep] at hq; exact Bool.noConfusion hq)]

/-- `wouldBeInCheck`'s simulated board, en-passant branch. -/
theorem wbicTestBoard_ep_eq (ept : Option Pos) (fm toP : Pos) (b : Board)
    (mp : ChessPiece) (target : Pos)
    (hnc : ¬(mp.type = .king ∧ (toP.col - fm.col).natAbs = 2))
    (hept : ept = some target)
    (hep : epCond ept mp toP = true) :
    wbicTestBoard ept fm toP b mp =
      setSq (setSq (setSq b toP.row toP.col (some mp)) fm.row fm.col none)
        target.row target.col none := by
  unfold wbicTestBoard
  rw [if_neg hnc, if_pos hep, hept]

/-- `wouldBeInCheck`'s simulated board, castling branch, with the rook-square
read resolved. -/
theorem wbicTestBoard_castle_eq (ept : Option Pos) (fm toP : Pos) (b : Board)
    (mp rook : ChessPiece) (rcol nrc : Int)
    (hc : mp.type = .king ∧ (toP.col - fm.col).natAbs = 2)
    (hite7 : (if toP.col > fm.col then (7 : Int) else 0) = rcol)
    (hite5 : (if toP.col > fm.col then (5 : Int) else 3) = nrc)
    (hrc_fm : rcol ≠ fm.col) (hrc_toP : rcol ≠ toP.col)
    (hrook : getSq b fm.row rcol = some rook) :
    wbicTestBoard ept fm toP b mp =
      setSq (setSq (setSq (setSq b toP.row toP.col (some mp)) fm.row fm.col none)
        fm.row nrc (some rook)) fm.row rcol none := by
  unfold wbicTestBoard
  rw [if_pos hc]
  dsimp only
  have h7 : (if decide (toP.col > fm.col) = true then (7 : Int) else 0) = rcol := by
    by_cases hks : toP.col > fm.col
    · rw [if_pos (decide_eq_true hks), ← hite7, if_pos hks]
    · rw [if_neg (fun hq => hks (of_decide_eq_true hq)), ← hite7, if_neg hks]
  have h5 : (if decide (toP.col > fm.col) = true then (5 : Int) else 3) = nrc := by
    by_cases hks : toP.col > fm.col
    · rw [if_pos (decide_eq_true hks), ← hite5, if_pos hks]
    · rw [if_neg (fun hq => hks (of_decide_eq_true hq)), ← hite5, if_neg hks]
  rw [h7, h5, getSq_setSq_other _ _ _ _ _ _ (Or.inr hrc_fm),
    getSq_setSq_other _ _ _ _ _ _ (Or.inr hrc_toP), hrook]

/-- `epCond` is false for non-pawn movers. -/
theorem epCond_not_pawn (ept : Option Pos) (mp : ChessPiece) (toP : Pos)
    (h : ¬ mp.type = .pawn) : epCond ept mp toP = false := by
  unfold epCond
  cases ept with
  | none => rfl
  | some t => simp [h]

/-- The board after a plain `MOVE_PIECE` dispatch (not castling, and for a
pawn neither the en-passant nor the promotion branch). -/
theorem applyMove_board_normal (s : ChessState) (fm toP : Pos) (promo : PieceType)
    (piece : ChessPiece) (hget : getSq s.board fm.row fm.col = some piece)
    (hvm : toP ∈ getValidMoves s.hasMoved s.enPassantTarget piece fm s.board)
    (hwbf : wouldBeInCheck s.enPassantTarget fm toP s.currentPlayer s.board = false)
    (hpp : s.promotionPawn = none)
    (hnc : ¬(piece.type = .king ∧ (toP.col - fm.col).natAbs = 2))
    (hnp : piece.type = .pawn → epCond s.enPassantTarget piece toP = false ∧
      ¬(toP.row = 0 ∨ toP.row = 7)) :
    (applyMove s fm toP promo).board =
      setSq (setSq s.board toP.row toP.col (some piece)) fm.row fm.col none := by
  have hHM : handleMove s fm toP = statusRecompute s (chessReducer s (.movePiece fm toP
      (generateMoveText piece fm toP (getSq s.board toP.row toP.col).isSome)
      (decide (piece.type = .pawn)) (getSq s.board toP.row toP.col).isSome)) piece fm toP := by
    simp only [handleMove, hget]
    rw [if_neg (handleMove_guard s fm toP piece hvm hwbf), if_neg hnc]
    by_cases hp : piece.type = .pawn
    · rw [if_pos hp, if_neg (fun h => by rw [(hnp hp).1] at h; exact Bool.noConfusion h),
        if_neg (hnp hp).2]
    · rw [if_neg hp]
  simp only [applyMove, hHM, statusRecompute, chessReducer, hget, hpp]

/-- The board after a `HANDLE_EN_PASSANT` dispatch. -/
theorem applyMove_board_ep (s : ChessState) (fm toP : Pos) (promo : PieceType)
    (piece : ChessPiece) (target : Pos)
    (hget : getSq s.board fm.row fm.col = some piece)
    (hvm : toP ∈ getValidMoves s.hasMoved s.enPassantTarget piece fm s.board)
    (hwbf : wouldBeInCheck s.enPassantTarget fm toP s.currentPlayer s.board = false)
    (hpp : s.promotionPawn = none)
    (hnc : ¬(piece.type = .king ∧ (toP.col - fm.col).natAbs = 2))
    (hp : piece.type = .pawn)
    (hept : s.enPassantTarget = some target)
    (hep : epCond s.enPassantTarget piece toP = true) :
    (applyMove s fm toP promo).board =
      setSq (setSq (setSq s.board toP.row toP.col (some piece)) fm.row fm.col none)
        target.row target.col none := by
  have hHM : handleMove s fm toP = statusRecompute s (chessReducer s (.handleEnPassant fm toP
      target (generateMoveText piece fm toP (getSq s.board toP.row toP.col).isSome)))
      piece fm toP := by
    simp only [handleMove, hget]
    rw [if_neg (handleMove_guard s fm toP piece hvm hwbf), if_neg hnc, if_pos hp, if_pos hep,
      hept]
  simp only [applyMove, hHM, statusRecompute, chessReducer, hget, hpp]

/-- The board after the promotion flow (`SET_PROMOTION_PAWN` from
`handleMove`, then `PROMOTE_PAWN` through `handlePromotion`). -/
theorem applyMove_board_promo (s : ChessState) (fm toP : Pos) (promo : PieceType)
    (piece : ChessPiece) (hget : getSq s.board fm.row fm.col = some piece)
    (hvm : toP ∈ getValidMoves s.hasMoved s.enPassantTarget piece fm s.board)
    (hwbf : wouldBeInCheck s.enPassantTarget fm toP s.currentPlayer s.board = false)
    (hsel : s.selectedPiece = some fm)
    (hnc : ¬(piece.type = .king ∧ (toP.col - fm.col).natAbs = 2))
    (hp : piece.type = .pawn)
    (hnep : epCond s.enPassantTarget piece toP = false)
    (hrow : toP.row = 0 ∨ toP.row = 7) :
    (applyMove s fm toP promo).board =
      setSq (setSq s.board fm.row fm.col none) toP.row toP.col (some ⟨promo, piece.color⟩) := by
  have hHM : handleMove s fm toP = chessReducer s (.setPromotionPawn toP piece.color) := by
    simp only [handleMove, hget]
    rw [if_neg (handleMove_guard s fm toP piece hvm hwbf), if_neg hnc, if_pos hp,
      if_neg (fun h => by rw [hnep] at h; exact Bool.noConfusion h), if_pos hrow]
  simp only [applyMove, hHM, chessReducer, handlePromotion, hsel]

/-- The board after a `HANDLE_CASTLING` dispatch when the rook square is
occupied. -/
theorem applyMove_board_castle (s : ChessState) (fm toP : Pos) (promo : PieceType)
    (piece rook : ChessPiece) (hget : getSq s.board fm.row fm.col = some piece)
    (hvm : toP ∈ getValidMoves s.hasMoved s.enPassantTarget piece fm s.board)
    (hwbf : wouldBeInCheck s.enPassantTarget fm toP s.currentPlayer s.board = false)
    (hpp : s.promotionPawn = none)
    (hc : piece.type = .king ∧ (toP.col - fm.col).natAbs = 2)
    (hrook : getSq s.board fm.row (if toP.col > fm.col then (7 : Int) else 0) = some rook) :
    (applyMove s fm toP promo).board =
      setSq (setSq (setSq (setSq s.board toP.row toP.col (some piece)) fm.row fm.col none)
          fm.row (if toP.col > fm.col then (5 : Int) else 3) (some rook))
        fm.row (if toP.col > fm.col then (7 : Int) else 0) none := by
  have hHM : handleMove s fm toP = statusRecompute s (chessReducer s (.handleCastling fm toP
      ⟨fm.row, if toP.col > fm.col then (7 : Int) else 0⟩
      ⟨fm.row, if toP.col > fm.col then (5 : Int) else 3⟩ piece.color
      (generateMoveText piece fm toP (getSq s.board toP.row toP.col).isSome))) piece fm toP := by
    simp only [handleMove, hget]
    rw [if_neg (handleMove_guard s fm toP piece hvm hwbf), if_pos hc]
  simp only [applyMove, hHM, statusRecompute, chessReducer, hget, hrook, hpp]

/-- The board is untouched when `HANDLE_CASTLING` finds the rook square
empty. -/
theorem applyMove_board_castle_norook (s : ChessState) (fm toP : Pos) (promo : PieceType)
    (piece : ChessPiece) (hget : getSq s.board fm.row fm.col = some piece)
    (hvm : toP ∈ getValidMoves s.hasMoved s.enPassantTarget piece fm s.board)
    (hwbf : wouldBeInCheck s.enPassantTarget fm toP s.currentPlayer s.board = false)
    (hpp : s.promotionPawn = none)
    (hc : piece.type = .king ∧ (toP.col - fm.col).natAbs = 2)
    (hrookn : getSq s.board fm.row (if toP.col > fm.col then (7 : Int) else 0) = none) :
    (applyMove s fm toP promo).board = s.board := by
  have hHM : handleMove s fm toP = statusRecompute s (chessReducer s (.handleCastling fm toP
      ⟨fm.row, if toP.col > fm.col then (7 : Int) else 0⟩
      ⟨fm.row, if toP.col > fm.col then (5 : Int) else 3⟩ piece.color
      (generateMoveText piece fm toP (getSq s.board toP.row toP.col).isSome))) piece fm toP := by
    simp only [handleMove, hget]
    rw [if_neg (handleMove_guard s fm toP piece hvm hwbf), if_pos hc]
  simp only [applyMove, hHM, statusRecompute, chessReducer, hget, hrookn, hpp]

/-- Positions with equal coordinates are equal. -/
theorem pos_eq (p q : Pos) (h1 : p.row = q.row) (h2 : p.col = q.col) : p = q := by
  cases p
  cases q
  dsimp only at h1 h2
  rw [h1, h2]

/-- Splitting a `getValidMoves` membership into its three generators. -/
theorem getValidMoves_cases (hm : HasMoved) (ept : Option Pos) (piece : ChessPiece)
    (pos toP : Pos) (b : Board)
    (h : toP ∈ getValidMoves hm ept piece pos b) :
    toP ∈ getBasicMoves piece pos b ∨
    (piece.type = .pawn ∧ toP ∈ getEnPassantMoves ept piece pos) ∨
    (piece.type = .king ∧ toP ∈ getCastlingMoves hm piece pos b) := by
  unfold getValidMoves at h
  simp only [List.mem_append] at h
  rcases h with (h | h) | h
  · exact Or.inl h
  · by_cases hp : piece.type = .pawn
    · exact Or.inr (Or.inl ⟨hp, by rwa [if_pos hp] at h⟩)
    · rw [if_neg hp] at h
      exact absurd h (List.not_mem_nil _)
  · by_cases hk : piece.type = .king
    · exact Or.inr (Or.inr ⟨hk, by rwa [if_pos hk] at h⟩)
    · rw [if_neg hk] at h
      exact absurd h (List.not_mem_nil _)

/-- Every generated king move stays on the board. -/
theorem king_valid_bounds (hm : HasMoved) (ept : Option Pos) (c : PieceColor)
    (pos toP : Pos) (b : Board)
    (h : toP ∈ getValidMoves hm ept ⟨.king, c⟩ pos b) :
    0 ≤ toP.row ∧ toP.row < 8 ∧ 0 ≤ toP.col ∧ toP.col < 8 := by
  rcases getValidMoves_cases hm ept ⟨.king, c⟩ pos toP b h with h | ⟨hp, -⟩ | ⟨-, h⟩
  · exact (king_basic_shape c pos toP b h).2
  · exact absurd hp (fun hq => PieceType.noConfusion hq)
  · rcases (castle_gen_shape hm ⟨.king, c⟩ pos toP b h).2 with h6 | h2
    · rw [h6]
      dsimp only
      by_cases hcw : c = PieceColor.white <;> simp [hcw] <;> norm_num
    · rw [h2]
      dsimp only
      by_cases hcw : c = PieceColor.white <;> simp [hcw] <;> norm_num

/-- A generated pawn move reaching the first or last rank comes from the
basic generator: it changes rank and stays on the board. -/
theorem pawn_promo_from_basic (hm : HasMoved) (ept : Option Pos) (c : PieceColor)
    (pos toP : Pos) (b : Board)
    (h : toP ∈ getValidMoves hm ept ⟨.pawn, c⟩ pos b)
    (hrow : toP.row = 0 ∨ toP.row = 7) :
    toP.row ≠ pos.row ∧ 0 ≤ toP.row ∧ toP.row < 8 ∧ 0 ≤ toP.col ∧ toP.col < 8 := by
  rcases getValidMoves_cases hm ept ⟨.pawn, c⟩ pos toP b h with h | ⟨-, hep⟩ | ⟨hk, -⟩
  · exact pawn_basic_shape c pos toP b h
  · have := (ep_gen_shape ept ⟨.pawn, c⟩ pos toP hep).1
    dsimp only at this
    by_cases hcw : c = PieceColor.white
    · rw [if_pos hcw] at this
      omega
    · rw [if_neg hcw] at this
      omega
  · exact absurd hk (fun hq => PieceType.noConfusion hq)

/-- Moving the unique king by a plain move: the simulated board's check test
at the destination square decides `isInCheck` of the whole board. -/
theorem normal_king_core (b : Board) (cp : PieceColor) (fm toP : Pos)
    (hwf : boardWf b) (hone : atMostOneKing cp b)
    (hget : getSq b fm.row fm.col = some ⟨.king, cp⟩)
    (hfmb : 0 ≤ fm.row ∧ fm.row < 8 ∧ 0 ≤ fm.col ∧ fm.col < 8)
    (htb : 0 ≤ toP.row ∧ toP.row < 8 ∧ 0 ≤ toP.col ∧ toP.col < 8)
    (hatt : checkSquareUnderAttack toP cp
      (setSq (setSq b toP.row toP.col (some ⟨.king, cp⟩)) fm.row fm.col none) = false) :
    isInCheck cp (setSq (setSq b toP.row toP.col (some ⟨.king, cp⟩)) fm.row fm.col none)
      = false := by
  have hfm_mem : fm ∈ allSquares := (mem_allSquares fm).mpr hfmb
  have htoP_mem : toP ∈ allSquares := (mem_allSquares toP).mpr htb
  have hwf1 : boardWf (setSq b toP.row toP.col (some ⟨.king, cp⟩)) := boardWf_setSq _ _ _ _ hwf
  by_cases hsame : fm.row = toP.row ∧ fm.col = toP.col
  · have hnone : ∀ p ∈ allSquares,
        getSq (setSq (setSq b toP.row toP.col (some ⟨.king, cp⟩)) fm.row fm.col none)
          p.row p.col ≠ some ⟨.king, cp⟩ := by
      intro p hp hpk
      by_cases hpf : p.row = fm.row ∧ p.col = fm.col
      · rw [hpf.1, hpf.2,
          getSq_setSq_same _ _ _ _ hwf1 hfmb.1 hfmb.2.1 hfmb.2.2.1 hfmb.2.2.2] at hpk
        exact Option.noConfusion hpk
      · have hne1 : p.row ≠ fm.row ∨ p.col ≠ fm.col := not_and_or.mp hpf
        have hne2 : p.row ≠ toP.row ∨ p.col ≠ toP.col := by
          rw [← hsame.1, ← hsame.2]
          exact hne1
        rw [getSq_setSq_other _ _ _ _ _ _ hne1, getSq_setSq_other _ _ _ _ _ _ hne2] at hpk
        have hfp := hone p hp fm hfm_mem hpk hget
        subst hfp
        exact hpf ⟨rfl, rfl⟩
    unfold isInCheck
    rw [findKing_eq_none _ _ hnone]
  · have hne1 : fm.row ≠ toP.row ∨ fm.col ≠ toP.col := not_and_or.mp hsame
    have hne1s : toP.row ≠ fm.row ∨ toP.col ≠ fm.col := hne1.imp Ne.symm Ne.symm
    have hq : getSq (setSq (setSq b toP.row toP.col (some ⟨.king, cp⟩)) fm.row fm.col none)
        toP.row toP.col = some ⟨.king, cp⟩ := by
      rw [getSq_setSq_other _ _ _ _ _ _ hne1s,
        getSq_setSq_same _ _ _ _ hwf htb.1 htb.2.1 htb.2.2.1 htb.2.2.2]
    have huniq : ∀ p ∈ allSquares,
        getSq (setSq (setSq b toP.row toP.col (some ⟨.king, cp⟩)) fm.row fm.col none)
          p.row p.col = some ⟨.king, cp⟩ → p = toP := by
      intro p hp hpk
      by_cases hpt : p.row = toP.row ∧ p.col = toP.col
      · exact pos_eq p toP hpt.1 hpt.2
      · by_cases hpf : p.row = fm.row ∧ p.col = fm.col
        · rw [hpf.1, hpf.2,
            getSq_setSq_same _ _ _ _ hwf1 hfmb.1 hfmb.2.1 hfmb.2.2.1 hfmb.2.2.2] at hpk
          exact Option.noConfusion hpk
        · rw [getSq_setSq_other _ _ _ _ _ _ (not_and_or.mp hpf),
            getSq_setSq_other _ _ _ _ _ _ (not_and_or.mp hpt)] at hpk
          have hfp := hone p hp fm hfm_mem hpk hget
          subst hfp
          exact absurd ⟨rfl, rfl⟩ hpf
    unfold isInCheck
    rw [findKing_eq_of_unique _ _ toP hq htoP_mem huniq]
    exact hatt

/-- Castling with the unique king: the simulated board's check test at the
king's destination decides `isInCheck` of the whole board. -/
theorem castle_core (b : Board) (cp : PieceColor) (fm toP : Pos) (rook : ChessPiece)
    (rcol nrc : Int)
    (hwf : boardWf b) (hone : atMostOneKing cp b)
    (hget : getSq b fm.row fm.col = some ⟨.king, cp⟩)
    (hrook : getSq b fm.row rcol = some rook)
    (hfmb : 0 ≤ fm.row ∧ fm.row < 8 ∧ 0 ≤ fm.col ∧ fm.col < 8)
    (htb : 0 ≤ toP.row ∧ toP.row < 8 ∧ 0 ≤ toP.col ∧ toP.col < 8)
    (hrcolb : 0 ≤ rcol ∧ rcol < 8) (hnrcb : 0 ≤ nrc ∧ nrc < 8)
    (hnrc_rcol : nrc ≠ rcol) (hrc_fm : rcol ≠ fm.col) (hnrc_fm : nrc ≠ fm.col)
    (hrc_toP : rcol ≠ toP.col) (hnrc_toP : nrc ≠ toP.col) (htoP_fm : toP.col ≠ fm.col)
    (hatt : checkSquareUnderAttack toP cp
      (setSq (setSq (setSq (setSq b toP.row toP.col (some ⟨.king, cp⟩)) fm.row fm.col none)
        fm.row nrc (some rook)) fm.row rcol none) = false) :
    isInCheck cp
      (setSq (setSq (setSq (setSq b toP.row toP.col (some ⟨.king, cp⟩)) fm.row fm.col none)
        fm.row nrc (some rook)) fm.row rcol none) = false := by
  have hfm_mem : fm ∈ allSquares := (mem_allSquares fm).mpr hfmb
  have htoP_mem : toP ∈ allSquares := (mem_allSquares toP).mpr htb
  have hwf1 : boardWf (setSq b toP.row toP.col (some ⟨.king, cp⟩)) := boardWf_setSq _ _ _ _ hwf
  have hwf2 : boardWf (setSq (setSq b toP.row toP.col (some ⟨.king, cp⟩))
      fm.row fm.col none) := boardWf_setSq _ _ _ _ hwf1
  have hwf3 : boardWf (setSq (setSq (setSq b toP.row toP.col (some ⟨.king, cp⟩))
      fm.row fm.col none) fm.row nrc (some rook)) := boardWf_setSq _ _ _ _ hwf2
  have hq : getSq (setSq (setSq (setSq (setSq b toP.row toP.col (some ⟨.king, cp⟩))
      fm.row fm.col none) fm.row nrc (some rook)) fm.row rcol none)
      toP.row toP.col = some ⟨.king, cp⟩ := by
    rw [getSq_setSq_other _ _ _ _ _ _ (Or.inr (Ne.symm hrc_toP)),
      getSq_setSq_other _ _ _ _ _ _ (Or.inr (Ne.symm hnrc_toP)),
      getSq_setSq_other _ _ _ _ _ _ (Or.inr htoP_fm),
      getSq_setSq_same _ _ _ _ hwf htb.1 htb.2.1 htb.2.2.1 htb.2.2.2]
  have huniq : ∀ p ∈ allSquares,
      getSq (setSq (setSq (setSq (setSq b toP.row toP.col (some ⟨.king, cp⟩))
        fm.row fm.col none) fm.row nrc (some rook)) fm.row rcol none)
        p.row p.col = some ⟨.king, cp⟩ → p = toP := by
    intro p hp hpk
    by_cases hpt : p.row = toP.row ∧ p.col = toP.col
    · exact pos_eq p toP hpt.1 hpt.2
    by_cases hprc : p.row = fm.row ∧ p.col = rcol
    · rw [hprc.1, hprc.2,
        getSq_setSq_same _ _ _ _ hwf3 hfmb.1 hfmb.2.1 hrcolb.1 hrcolb.2] at hpk
      exact Option.noConfusion hpk
    by_cases hpnrc : p.row = fm.row ∧ p.col = nrc
    · rw [hpnrc.1, hpnrc.2,
        getSq_setSq_other _ _ _ _ _ _ (Or.inr hnrc_rcol),
        getSq_setSq_same _ _ _ _ hwf2 hfmb.1 hfmb.2.1 hnrcb.1 hnrcb.2] at hpk
      have hrk : rook = ⟨.king, cp⟩ := Option.some.inj hpk
      rw [hrk] at hrook
      have hcc := hone (Pos.mk fm.row rcol)
        ((mem_allSquares _).mpr ⟨hfmb.1, hfmb.2.1, hrcolb.1, hrcolb.2⟩)
        fm hfm_mem hrook hget
      have := congrArg Pos.col hcc
      dsimp only at this
      exact absurd this.symm hrc_fm
    by_cases hpf : p.row = fm.row ∧ p.col = fm.col
    · rw [hpf.1, hpf.2,
        getSq_setSq_other _ _ _ _ _ _ (Or.inr (Ne.symm hrc_fm)),
        getSq_setSq_other _ _ _ _ _ _ (Or.inr (Ne.symm hnrc_fm)),
        getSq_setSq_same _ _ _ _ hwf1 hfmb.1 hfmb.2.1 hfmb.2.2.1 hfmb.2.2.2] at hpk
      exact Option.noConfusion hpk
    · rw [getSq_setSq_other _ _ _ _ _ _ (not_and_or.mp hprc),
        getSq_setSq_other _ _ _ _ _ _ (not_and_or.mp hpnrc),
        getSq_setSq_other _ _ _ _ _ _ (not_and_or.mp hpf),
        getSq_setSq_other _ _ _ _ _ _ (not_and_or.mp hpt)] at hpk
      have hfp := hone p hp fm hfm_mem hpk hget
      subst hfp
      exact absurd ⟨rfl, rfl⟩ hpf
  unfold isInCheck
  rw [findKing_eq_of_unique _ _ toP hq htoP_mem huniq]
  exact hatt

/-- C2: for a position with a well-formed board, at most one king of the
side to move, the mover's piece on the source square belonging to the side
to move, the source selected, no pending promotion, and a non-king promotion
choice, every move of `legalMoves` is in `pseudoLegalMoves`, and applying it
through the UI flow (castling rook relocation and promotion included) never
leaves the mover's own king in check. -/
theorem c2_legal_subset_pseudo_and_no_self_check
    (s : ChessState) (fm toP : Pos) (promo : PieceType) (piece : ChessPiece)
    (hwf : boardWf s.board)
    (hone : atMostOneKing s.currentPlayer s.board)
    (hget : getSq s.board fm.row fm.col = some piece)
    (hturn : piece.color = s.currentPlayer)
    (hsel : s.selectedPiece = some fm)
    (hpp : s.promotionPawn = none)
    (hpromo : promo ≠ .king)
    (hmem : toP ∈ legalMoves s fm) :
    toP ∈ pseudoLegalMoves s fm ∧
      isInCheck s.currentPlayer (applyMove s fm toP promo).board = false := by
  have hmem' := hmem
  unfold legalMoves at hmem'
  rw [hget] at hmem'
  have hfil := List.mem_filter.mp hmem'
  have hvm : toP ∈ getValidMoves s.hasMoved s.enPassantTarget piece fm s.board := hfil.1
  have hwbf : wouldBeInCheck s.enPassantTarget fm toP s.currentPlayer s.board = false := by
    simpa using hfil.2
  refine ⟨by unfold pseudoLegalMoves; rw [hget]; exact hvm, ?_⟩
  have hfmb := getSq_some_inBounds s.board fm.row fm.col piece hwf hget
  have hwbe := wbic_false_parts s.enPassantTarget fm toP s.currentPlayer s.board piece
    hget hwbf
  by_cases hc : piece.type = .king ∧ (toP.col - fm.col).natAbs = 2
  · -- castling dispatch
    have hpc : piece = ⟨.king, s.currentPlayer⟩ := by rw [← hc.1, ← hturn]
    have h2 := hwbe.2.1 hc.1
    have hvm' := hvm
    rw [hpc] at hvm'
    rcases getValidMoves_cases s.hasMoved s.enPassantTarget _ fm toP s.board hvm' with
      hbm | ⟨hpn, -⟩ | ⟨-, hcs⟩
    · have := (king_basic_shape _ _ _ _ hbm).1
      exact absurd hc.2 (by omega)
    · exact absurd hpn (fun hq => PieceType.noConfusion hq)
    · have hcf : (toP.col = 6 ∨ toP.col = 2) ∧ (toP.row = 7 ∨ toP.row = 0) := by
        rcases (castle_gen_shape _ _ _ _ _ hcs).2 with h | h <;> rw [h] <;> dsimp only <;>
          by_cases hcw : s.currentPlayer = PieceColor.white <;> simp [hcw]
      obtain ⟨h6, h7⟩ := hcf
      have htb : 0 ≤ toP.row ∧ toP.row < 8 ∧ 0 ≤ toP.col ∧ toP.col < 8 := by omega
      have hrn : ((if toP.col > fm.col then (7 : Int) else 0) = 7 ∧
          (if toP.col > fm.col then (5 : Int) else 3) = 5 ∧ fm.col + 2 = toP.col) ∨
          ((if toP.col > fm.col then (7 : Int) else 0) = 0 ∧
          (if toP.col > fm.col then (5 : Int) else 3) = 3 ∧ fm.col - 2 = toP.col) := by
        by_cases hks : toP.col > fm.col
        · exact Or.inl ⟨if_pos hks, if_pos hks, by have := hc.2; omega⟩
        · exact Or.inr ⟨if_neg hks, if_neg hks, by have := hc.2; omega⟩
      cases hrook : getSq s.board fm.row (if toP.col > fm.col then (7 : Int) else 0) with
      | none =>
        rw [applyMove_board_castle_norook s fm toP promo piece hget hvm hwbf hpp hc hrook]
        exact hwbe.1 hc
      | some rook =>
        rw [applyMove_board_castle s fm toP promo piece rook hget hvm hwbf hpp hc hrook]
        rcases hrn with ⟨e1, e2, e3⟩ | ⟨e1, e2, e3⟩
        · rw [e1] at hrook
          rw [e1, e2]
          rw [wbicTestBoard_castle_eq s.enPassantTarget fm toP s.board piece rook 7 5 hc e1 e2
            (by omega) (by omega) hrook] at h2
          rw [hpc] at h2 ⊢
          exact castle_core s.board s.currentPlayer fm toP rook 7 5 hwf hone
            (by rw [← hpc]; exact hget) hrook hfmb htb (by omega) (by omega) (by omega)
            (by omega) (by omega) (by omega) (by omega) (by omega) h2
        · rw [e1] at hrook
          rw [e1, e2]
          rw [wbicTestBoard_castle_eq s.enPassantTarget fm toP s.board piece rook 0 3 hc e1 e2
            (by omega) (by omega) hrook] at h2
          rw [hpc] at h2 ⊢
          exact castle_core s.board s.currentPlayer fm toP rook 0 3 hwf hone
            (by rw [← hpc]; exact hget) hrook hfmb htb (by omega) (by omega) (by omega)
            (by omega) (by omega) (by omega) (by omega) (by omega) h2
  · by_cases hp : piece.type = .pawn
    · have hkn : ¬ piece.type = .king := fun hk => by
        rw [hp] at hk
        exact PieceType.noConfusion hk
      by_cases hep : epCond s.enPassantTarget piece toP = true
      · -- en-passant dispatch
        cases hept : s.enPassantTarget with
        | none =>
          rw [hept] at hep
          simp [epCond] at hep
        | some target =>
          rw [applyMove_board_ep s fm toP promo piece target hget hvm hwbf hpp hc hp hept hep]
          have h2 := hwbe.2.2 hkn
          rw [wbicTestBoard_ep_eq s.enPassantTarget fm toP s.board piece target hc hept hep]
            at h2
          exact h2
      · have hnep : epCond s.enPassantTarget piece toP = false := by
          simpa using hep
        by_cases hrow : toP.row = 0 ∨ toP.row = 7
        · -- promotion dispatch
          rw [applyMove_board_promo s fm toP promo piece hget hvm hwbf hsel hc hp hnep hrow]
          have hpc : piece = ⟨.pawn, piece.color⟩ := by rw [← hp]
          have hvm' := hvm
          rw [hpc] at hvm'
          have hsh := pawn_promo_from_basic s.hasMoved s.enPassantTarget piece.color fm toP
            s.board hvm' hrow
          have h2 := hwbe.2.2 hkn
          rw [wbicTestBoard_normal_eq s.enPassantTarget fm toP s.board piece hc hnep] at h2
          have hwfA : boardWf (setSq s.board fm.row fm.col none) := boardWf_setSq _ _ _ _ hwf
          have hwfB : boardWf (setSq s.board toP.row toP.col (some piece)) :=
            boardWf_setSq _ _ _ _ hwf
          have hne : fm.row ≠ toP.row ∨ fm.col ≠ toP.col := Or.inl (Ne.symm hsh.1)
          have hag : AgreeX
              (setSq (setSq s.board fm.row fm.col none) toP.row toP.col
                (some ⟨promo, piece.color⟩))
              (setSq (setSq s.board toP.row toP.col (some piece)) fm.row fm.col none)
              toP s.currentPlayer := by
            refine ⟨?_, ⟨⟨promo, piece.color⟩, ?_, hturn⟩, ⟨piece, ?_, hturn⟩⟩
            · intro r c hrc
              by_cases hisfm : r = fm.row ∧ c = fm.col
              · rw [hisfm.1, hisfm.2,
                  getSq_setSq_other _ _ _ _ _ _ hne,
                  getSq_setSq_same _ _ _ _ hwf hfmb.1 hfmb.2.1 hfmb.2.2.1 hfmb.2.2.2,
                  getSq_setSq_same _ _ _ _ hwfB hfmb.1 hfmb.2.1 hfmb.2.2.1 hfmb.2.2.2]
              · have ho1 : r ≠ fm.row ∨ c ≠ fm.col := not_and_or.mp hisfm
                have hL : getSq (setSq (setSq s.board fm.row fm.col none) toP.row toP.col
                    (some ⟨promo, piece.color⟩)) r c = getSq s.board r c := by
                  rw [getSq_setSq_other _ _ _ _ _ _ hrc, getSq_setSq_other _ _ _ _ _ _ ho1]
                have hR : getSq (setSq (setSq s.board toP.row toP.col (some piece))
                    fm.row fm.col none) r c = getSq s.board r c := by
                  rw [getSq_setSq_other _ _ _ _ _ _ ho1, getSq_setSq_other _ _ _ _ _ _ hrc]
                rw [hL, hR]
            · rw [getSq_setSq_same _ _ _ _ hwfA hsh.2.1 hsh.2.2.1 hsh.2.2.2.1 hsh.2.2.2.2]
            · rw [getSq_setSq_other _ _ _ _ _ _ (Or.inl hsh.1),
                getSq_setSq_same _ _ _ _ hwf hsh.2.1 hsh.2.2.1 hsh.2.2.2.1 hsh.2.2.2.2]
          have hbq : getSq (setSq (setSq s.board fm.row fm.col none) toP.row toP.col
              (some ⟨promo, piece.color⟩)) toP.row toP.col ≠
              some ⟨.king, s.currentPlayer⟩ := by
            rw [getSq_setSq_same _ _ _ _ hwfA hsh.2.1 hsh.2.2.1 hsh.2.2.2.1 hsh.2.2.2.2]
            intro heq
            exact hpromo (congrArg ChessPiece.type (Option.some.inj heq))
          have hbq' : getSq (setSq (setSq s.board toP.row toP.col (some piece))
              fm.row fm.col none) toP.row toP.col ≠ some ⟨.king, s.currentPlayer⟩ := by
            rw [getSq_setSq_other _ _ _ _ _ _ (Or.inl hsh.1),
              getSq_setSq_same _ _ _ _ hwf hsh.2.1 hsh.2.2.1 hsh.2.2.2.1 hsh.2.2.2.2]
            intro heq
            have h5 := congrArg ChessPiece.type (Option.some.inj heq)
            rw [hp] at h5
            exact PieceType.noConfusion h5
          rw [isInCheck_congr _ _ toP s.currentPlayer hag hbq hbq']
          exact h2
        · -- plain pawn move
          rw [applyMove_board_normal s fm toP promo piece hget hvm hwbf hpp hc
            (fun _ => ⟨hnep, hrow⟩)]
          have h2 := hwbe.2.2 hkn
          rw [wbicTestBoard_normal_eq s.enPassantTarget fm toP s.board piece hc hnep] at h2
          exact h2
    · -- non-pawn mover
      have hnep : epCond s.enPassantTarget piece toP = false := epCond_not_pawn _ _ _ hp
      rw [applyMove_board_normal s fm toP promo piece hget hvm hwbf hpp hc
        (fun hq => absurd hq hp)]
      by_cases hkg : piece.type = .king
      · -- king step (possibly a castling-shaped destination with the rook
        -- already displaced; either way a plain `MOVE_PIECE`)
        have hpc : piece = ⟨.king, s.currentPlayer⟩ := by rw [← hkg, ← hturn]
        have h2 := hwbe.2.1 hkg
        rw [wbicTestBoard_normal_eq s.enPassantTarget fm toP s.board piece hc hnep] at h2
        have hvm' := hvm
        rw [hpc] at hvm'
        have htb := king_valid_bounds s.hasMoved s.enPassantTarget s.currentPlayer fm toP
          s.board hvm'
        rw [hpc] at h2 ⊢
        exact normal_king_core s.board s.currentPlayer fm toP hwf hone
          (by rw [← hpc]; exact hget) hfmb htb h2
      · have h2 := hwbe.2.2 hkg
        rw [wbicTestBoard_normal_eq s.enPassantTarget fm toP s.board piece hc hnep] at h2
        exact h2

/-- The initial position with the e2 pawn selected, about to play e2–e4. -/
def c2WitnessState : ChessState :=
  { initialChessState with selectedPiece := some ⟨6, 4⟩ }

set_option maxRecDepth 100000 in
/-- C2 witness: e2–e4 from the initial position is legal, pseudo-legal, and
leaves white's king out of check. -/
theorem c2_witness :
    (⟨4, 4⟩ : Pos) ∈ pseudoLegalMoves c2WitnessState ⟨6, 4⟩ ∧
      isInCheck c2WitnessState.currentPlayer
        (applyMove c2WitnessState ⟨6, 4⟩ ⟨4, 4⟩ .queen).board = false :=
  c2_legal_subset_pseudo_and_no_self_check c2WitnessState ⟨6, 4⟩ ⟨4, 4⟩ .queen ⟨.pawn, .white⟩
    (by decide) (by decide) (by decide) (by decide) (by decide) (by decide) (by decide)
    (by decide)

end NAChess
